import Mathlib

/-!
bingrep: scanning a byte buffer for a literal or a pointer range.

A shallow embedding of `bingrep.cpp` and the properties of its scanning loop,
its process-memory acquisition loop, its output format, its mapping-table
reader and the validation of its command line.

Conventions of the embedding

* A byte is a `Fin 256`; a buffer is a `List Byte` and its `size` is the length
  of the list.  `size_t` and `uint64_t` arithmetic is arithmetic on `Nat`
  reduced modulo `2^64` wherever the C++ expression can wrap.
* Reading `n` bytes at offset `i` of a buffer is defined only when
  `i + n ≤ size`; a read outside the buffer is undefined behaviour in C++ and
  is recorded as `Status.fault i`.
* The callback `cb` of `scan` is modelled by the list `hits` of the offsets it
  is called with, in call order; `tested` lists the offsets whose window test
  was started.
-/

namespace Bingrep

/-- One byte of a buffer (`char` seen as `unsigned char`). -/
abbrev Byte := Fin 256

/-- The modulus of `size_t` and `uint64_t` arithmetic. -/
def WORD : Nat := 2 ^ 64

/-- Unsigned 64-bit subtraction `a - b`, wrapping around. -/
def usub (a b : Nat) : Nat := (a % WORD + (WORD - b % WORD)) % WORD

/-- Unsigned 64-bit addition `a + b`, wrapping around. -/
def uadd (a b : Nat) : Nat := (a + b) % WORD

/-- The global `struct Opts opts`; statics are zero-initialised and
`pointer_size` defaults to 8. -/
structure Opts where
  filename : List Char := []
  pid : Int := 0
  indirections : Int := 0
  pointer_size : Int := 8
  «from» : Nat := 0
  «to» : Nat := 0
  pattern : List Byte := []
deriving DecidableEq, Repr

/-- How a run of `scan` ends. -/
inductive Status where
  /-- the loop condition became false -/
  | done
  /-- a window starting at offset `i` reached outside the buffer -/
  | fault (i : Nat)
  /-- `abort()` was called -/
  | aborted
  /-- the loop did not finish within the iteration budget of the model -/
  | outOfFuel
deriving DecidableEq, Repr

/-- Observable behaviour of one call of `scan`. -/
structure ScanRun where
  /-- offsets at which a window test was started, in order -/
  tested : List Nat
  /-- offsets passed to the callback, in order -/
  hits : List Nat
  status : Status
deriving DecidableEq, Repr

/-- The `n` bytes at `data + i`, when they all lie inside the buffer. -/
def window (data : List Byte) (i n : Nat) : Option (List Byte) :=
  if i + n ≤ data.length then some ((data.drop i).take n) else none

/-- Byte-wise comparison `memcmp(a, b, n)` of two `n`-byte blocks: zero iff they
are equal, otherwise the difference of the first differing bytes. -/
def memcmp : List Byte → List Byte → Int
  | a :: as, b :: bs => if a = b then memcmp as bs else (a.val : Int) - (b.val : Int)
  | _, _ => 0

/-- Unsigned little-endian value of a block of bytes
(`*reinterpret_cast<const uintN_t*>(p)` on a little-endian machine). -/
def le_decode : List Byte → Nat
  | [] => 0
  | b :: bs => b.val + 256 * le_decode bs

/-- The loop `for (size_t i = 0; i <= bound; ++i) if (test(i)) cb(i);` started
at `i`, with at most `fuel` evaluations of the loop condition. -/
def scan_loop (test : Nat → Option Bool) (bound : Nat) : Nat → Nat → ScanRun
  | 0, _ => ⟨[], [], Status.outOfFuel⟩
  | fuel + 1, i =>
    if i ≤ bound then
      match test i with
      | none => ⟨[i], [], Status.fault i⟩
      | some b =>
        let r := scan_loop test bound fuel ((i + 1) % WORD)
        ⟨i :: r.tested, if b then i :: r.hits else r.hits, r.status⟩
    else ⟨[], [], Status.done⟩

/-- Window test of the literal branch: `!memcmp(data + i, s.data(), s.size())`. -/
def test_literal (opts : Opts) (data : List Byte) (i : Nat) : Option Bool :=
  (window data i opts.pattern.length).map fun w => memcmp w opts.pattern == 0

/-- Window test of the two range branches for a `width`-byte unsigned value:
`val >= opts.from && val <= opts.to`. -/
def test_range (opts : Opts) (width : Nat) (data : List Byte) (i : Nat) : Option Bool :=
  (window data i width).map fun w =>
    let val := le_decode w
    decide (val ≥ opts.from) && decide (val ≤ opts.«to»)

/-- The function `scan(data, size, cb)`.  Every loop gets `size + 2` evaluations
of its condition, which is never exhausted for a buffer that fits `size_t`
(theorem `scan_status`). -/
def scan (opts : Opts) (data : List Byte) : ScanRun :=
  let size := data.length
  if opts.pattern ≠ [] then
    scan_loop (test_literal opts data) (usub size opts.pattern.length) (size + 2) 0
  else if opts.pointer_size = 4 then
    scan_loop (test_range opts 4 data) (usub size 4) (size + 2) 0
  else if opts.pointer_size = 8 then
    scan_loop (test_range opts 8 data) (usub size 8) (size + 2) 0
  else
    ⟨[], [], Status.aborted⟩

/-- The window length of the active pattern: `len(bytes)` for a literal, the
pointer width for a range. -/
def step (opts : Opts) : Nat :=
  if opts.pattern ≠ [] then opts.pattern.length else opts.pointer_size.toNat

/-- The pattern is a non-empty literal or a range of width 4 or 8. -/
def ValidPattern (opts : Opts) : Prop :=
  opts.pattern ≠ [] ∨ opts.pointer_size = 4 ∨ opts.pointer_size = 8

instance (opts : Opts) : Decidable (ValidPattern opts) := by
  unfold ValidPattern; infer_instance

/-- The bytes `B[o .. o+n)`. -/
def slice (B : List Byte) (o n : Nat) : List Byte := (B.drop o).take n

/-! ## Output format -/

/-- The lowercase hexadecimal digit of a value below 16. -/
def hex_digit (d : Nat) : Char :=
  if d < 10 then Char.ofNat (48 + d) else Char.ofNat (87 + d)

/-- Digit generation of `%lx`: least significant digit first, pushed in front
of `acc`, stopping when the quotient is zero. -/
def hex_digits : Nat → Nat → List Char → List Char
  | 0, _, acc => acc
  | fuel + 1, n, acc =>
    let acc1 := hex_digit (n % 16) :: acc
    if n / 16 = 0 then acc1 else hex_digits fuel (n / 16) acc1

/-- The text of a 64-bit unsigned value under `std::hex`: its hexadecimal
numeral without leading zeros (a 64-bit value has at most 16 digits). -/
def hex_repr (x : Nat) : List Char := hex_digits 16 (x % WORD) []

/-- Padding of a field to `width` with `fill`, right-adjusted (the default
adjustment of an output stream). -/
def pad_left (width : Nat) (fill : Char) (field : List Char) : List Char :=
  List.replicate (width - field.length) fill ++ field

/-- The line written by
`cout << std::hex << std::setw(16) << std::setfill('0') << x << endl`. -/
def render_match (x : Nat) : List Char :=
  pad_left 16 '0' (hex_repr x) ++ ['\n']

/-- Value of a lowercase hexadecimal digit character. -/
def lower_hex_val (c : Char) : Option Nat :=
  if '0' ≤ c ∧ c ≤ '9' then some (c.toNat - 48)
  else if 'a' ≤ c ∧ c ≤ 'f' then some (c.toNat - 87)
  else none

/-- Reads a string of lowercase hexadecimal digits, most significant first. -/
def parse_lower_hex (cs : List Char) : Option Nat :=
  cs.foldl (fun acc c => acc.bind fun a => (lower_hex_val c).map fun d => 16 * a + d) (some 0)

/-- The sixteen lowercase hexadecimal digit characters. -/
def hex_chars : List Char := "0123456789abcdef".toList

/-! ## File mode -/

/-- Fatal errors (`die`, `die_perror`): the process exits with `EXIT_FAILURE`. -/
inductive Fatal where
  /-- `open`, `lseek` or `mmap` of the file failed -/
  | file_failed
  /-- the maps file could not be opened -/
  | maps_open_failed
  /-- the mem file could not be opened -/
  | mem_open_failed
deriving DecidableEq, Repr

/-- The function `bingrep_file`; `file` is the content of the mapped file, absent
when `open`, `lseek` or `mmap` fails.  The callback prints each offset, so the
lines on standard output are the rendered `hits` of the result. -/
def bingrep_file (opts : Opts) (file : Option (List Byte)) : Except Fatal ScanRun :=
  match file with
  | none => Except.error Fatal.file_failed
  | some map => Except.ok (scan opts map)

/-- Text written to standard output for a sequence of matches. -/
def stdout_text (matches_ : List Nat) : List Char :=
  matches_.flatMap render_match

/-! ## Process mode: acquisition of a region -/

/-- What one `read(fd, p, count)` delivers: the returned `ssize_t` and the bytes
stored at `p`. -/
structure ReadResult where
  res : Int
  bytes : List Byte
deriving DecidableEq, Repr

/-- The memory source behind the descriptor of `/proc/<pid>/mem`, with an
arbitrary state `σ` (file position, the observed process, …). -/
structure MemSource (σ : Type) where
  /-- `lseek(fd, start, SEEK_SET)` -/
  lseek : σ → Nat → σ
  /-- `read(fd, p, count)` -/
  read : σ → Nat → ReadResult × σ

/-- The guarantee of `read`: a positive result is at most the count requested
and is the number of bytes stored. -/
def ReadContract {σ : Type} (m : MemSource σ) : Prop :=
  ∀ s count, 0 < (m.read s count).1.res →
    (m.read s count).1.res ≤ (count : Int) ∧
      (m.read s count).1.bytes.length = (m.read s count).1.res.toNat

/-- Outcome of the read loop of one region. -/
structure ReadRun (σ : Type) where
  /-- the flag `error` -/
  error : Bool
  /-- the bytes stored so far, `data[0 .. p - data)` -/
  filled : List Byte
  /-- the variable `remaining` when the loop is left -/
  remaining : Nat
  /-- the reads issued, in order: count requested and value returned -/
  log : List (Nat × Int)
  /-- the memory source after the loop -/
  state : σ

/-- The loop `while (remaining) { res = read(fd, p, remaining); if (res <= 0)
{ error = true; break; } p += res; remaining -= res; }` with at most `fuel`
reads; `none` when the budget is exhausted. -/
def read_loop {σ : Type} (m : MemSource σ) : Nat → σ → Nat → List Byte → Option (ReadRun σ)
  | 0, s, remaining, filled =>
    if remaining = 0 then some ⟨false, filled, 0, [], s⟩ else none
  | fuel + 1, s, remaining, filled =>
    if remaining = 0 then some ⟨false, filled, 0, [], s⟩
    else
      let r := (m.read s remaining).1
      let s1 := (m.read s remaining).2
      if r.res ≤ 0 then some ⟨true, filled, remaining, [(remaining, r.res)], s1⟩
      else
        (read_loop m fuel s1 (usub remaining r.res.toNat) (filled ++ r.bytes)).map
          fun run => { run with log := (remaining, r.res) :: run.log }

/-- Acquisition of one region (the body of the `for` loop up to the test of
`error`): seek to `start`, then fill a buffer of `finish - start` bytes.  A read
that honours `ReadContract` consumes at least one byte, so `size` reads are
enough. -/
def snapshot {σ : Type} (m : MemSource σ) (s : σ) (region : Nat × Nat) : Option (ReadRun σ) :=
  let size := usub region.2 region.1
  read_loop m size (m.lseek s region.1) size []

/-- Observable behaviour of the `for` loop of `bingrep_proc`. -/
structure ProcRun where
  /-- the values printed on standard output, one line each, in order -/
  out : List Nat
  /-- the regions reported on standard error as unreadable, in order -/
  warnings : List (Nat × Nat)
  /-- the buffers `scan` was called on, in order -/
  scanned : List (List Byte)
  status : Status
deriving DecidableEq, Repr

/-- The loop `for (const auto& map : maps) { … }` of `bingrep_proc`.  Allocation
is assumed to succeed. -/
def proc_loop {σ : Type} (opts : Opts) (m : MemSource σ) : List (Nat × Nat) → σ → ProcRun
  | [], _ => ⟨[], [], [], Status.done⟩
  | region :: rest, s =>
    match snapshot m s region with
    | none => ⟨[], [], [], Status.outOfFuel⟩
    | some r =>
      if r.error then
        let t := proc_loop opts m rest r.state
        ⟨t.out, region :: t.warnings, t.scanned, t.status⟩
      else
        let sc := scan opts r.filled
        let lines := sc.hits.map (uadd region.1)
        if sc.status = Status.done then
          let t := proc_loop opts m rest r.state
          ⟨lines ++ t.out, t.warnings, r.filled :: t.scanned, t.status⟩
        else
          ⟨lines, [], [r.filled], sc.status⟩

/-! ## Process mode: the mapping table

`parse_maps` reads `/proc/<pid>/maps` line by line and extracts two numbers
with `ss >> std::hex >> start >> c >> finish`.  The extraction operators are
modelled after the input operators of the C++ standard library in the "C"
locale: a sentry that skips white space and fails at end of input, the integer
parser of `num_get` for base 16 (optional sign, optional `0x` prefix,
digits, saturation on overflow, zero on a missing digit), and the state flags
`failbit` and `eofbit` that turn every later extraction into a no-op.
-/

/-- An input string stream: the characters not yet consumed and two state
flags. -/
structure IStream where
  buf : List Char
  failbit : Bool
  eofbit : Bool
deriving DecidableEq, Repr

/-- The test `good()`. -/
def IStream.good (s : IStream) : Bool := !s.failbit && !s.eofbit

/-- White space of the "C" locale. -/
def is_space (c : Char) : Bool :=
  c = ' ' || c = '\t' || c = '\n' || c = '\x0b' || c = '\x0c' || c = '\r'

/-- The sentry of a formatted input operation: on a good stream it skips white
space; it succeeds when a character is left. -/
def sentry (s : IStream) : IStream × Bool :=
  if s.good then
    match s.buf.dropWhile is_space with
    | [] => (⟨[], true, true⟩, false)
    | c :: rest => (⟨c :: rest, false, false⟩, true)
  else (⟨s.buf, true, s.eofbit⟩, false)

/-- Value of a hexadecimal digit character, either case. -/
def hex_val (c : Char) : Option Nat :=
  if '0' ≤ c ∧ c ≤ '9' then some (c.toNat - 48)
  else if 'a' ≤ c ∧ c ≤ 'f' then some (c.toNat - 87)
  else if 'A' ≤ c ∧ c ≤ 'F' then some (c.toNat - 55)
  else none

/-- The largest `uint64_t`. -/
def UMAX : Nat := WORD - 1

/-- The digit loop of the integer parser in base 16: consumes digits, keeping
the value, an overflow flag and the number of digits accumulated; returns them
with the unconsumed input. -/
def accumulate : List Char → Nat → Bool → Nat → Nat × Bool × Nat × List Char
  | [], result, overflow, n => (result, overflow, n, [])
  | c :: cs, result, overflow, n =>
    match hex_val c with
    | none => (result, overflow, n, c :: cs)
    | some d =>
      if result > UMAX / 16 then accumulate cs result true n
      else
        accumulate cs ((result * 16 + d) % WORD)
          (overflow || decide (result * 16 > UMAX - d)) (n + 1)

/-- The integer parser for an unsigned 64-bit value in base 16, applied to
non-empty input: the value stored, whether it failed, and the input left. -/
def num_get_hex (buf : List Char) : Nat × Bool × List Char :=
  let signed : Bool × List Char :=
    match buf with
    | '-' :: r => (true, r)
    | '+' :: r => (false, r)
    | _ => (false, buf)
  let zero : Bool × List Char :=
    match signed.2 with
    | '0' :: 'x' :: r => (false, r)
    | '0' :: 'X' :: r => (false, r)
    | '0' :: r => (true, r)
    | _ => (false, signed.2)
  let acc := accumulate zero.2 0 false 0
  let result := acc.1
  let overflow := acc.2.1
  let ndigits := acc.2.2.1
  let rest := acc.2.2.2
  if ndigits = 0 ∧ zero.1 = false then (0, true, rest)
  else if overflow then (UMAX, true, rest)
  else (if signed.1 then usub 0 result else result, false, rest)

/-- The operator `ss >> v` for a `uint64_t v` under `std::hex`; `v` keeps its
old value when the sentry fails. -/
def extract_hex (s : IStream) (v : Nat) : IStream × Nat :=
  let st := sentry s
  if st.2 then
    let r := num_get_hex st.1.buf
    (⟨r.2.2, r.2.1, decide (r.2.2 = [])⟩, r.1)
  else (st.1, v)

/-- The operator `ss >> c` for a `char c`. -/
def extract_char (s : IStream) (c : Char) : IStream × Char :=
  let st := sentry s
  if st.2 then
    match st.1.buf with
    | [] => (⟨[], true, true⟩, c)
    | ch :: rest => (⟨rest, false, false⟩, ch)
  else (st.1, c)

/-- The body of the loop of `parse_maps` for one line; `uninit` holds the
indeterminate initial values of `start` and `finish`. -/
def parse_line (line : List Char) (uninit : Nat × Nat) : Nat × Nat :=
  let ss : IStream := ⟨line, false, false⟩
  let e1 := extract_hex ss uninit.1
  let e2 := extract_char e1.1 '\x00'
  let e3 := extract_hex e2.1 uninit.2
  (e1.2, e3.2)

/-- The lines `getline` delivers until it fails: the text is cut at each
newline, and a last line without newline is delivered when it is not empty.
`cur` is the current line, reversed. -/
def getlines : List Char → List Char → List (List Char)
  | [], cur => if cur = [] then [] else [cur.reverse]
  | c :: rest, cur =>
    if c = '\n' then cur.reverse :: getlines rest [] else getlines rest (c :: cur)

/-- The loop `while (getline(f, line)) { …; res.emplace_back(start, finish); }`
over the lines, `k` being the index of the first one. -/
def parse_lines (uninit : Nat → Nat × Nat) : List (List Char) → Nat → List (Nat × Nat)
  | [], _ => []
  | line :: rest, k => parse_line line (uninit k) :: parse_lines uninit rest (k + 1)

/-- The function `parse_maps`; `maps` is the text of `/proc/<pid>/maps`, absent
when the file cannot be opened, and `uninit k` gives the indeterminate initial
values of the locals `start` and `finish` in iteration `k`. -/
def parse_maps (maps : Option (List Char)) (uninit : Nat → Nat × Nat) :
    Except Fatal (List (Nat × Nat)) :=
  match maps with
  | none => Except.error Fatal.maps_open_failed
  | some text => Except.ok (parse_lines uninit (getlines text []) 0)

/-- The function `bingrep_proc`: the mapping table is read first, then the mem
file is opened (`mem` is absent when that fails), then every region is
acquired and scanned. -/
def bingrep_proc {σ : Type} (opts : Opts) (maps : Option (List Char))
    (uninit : Nat → Nat × Nat) (m : MemSource σ) (mem : Option σ) : Except Fatal ProcRun :=
  match parse_maps maps uninit with
  | Except.error e => Except.error e
  | Except.ok regions =>
    match mem with
    | none => Except.error Fatal.mem_open_failed
    | some s => Except.ok (proc_loop opts m regions s)

/-- The acquisitions the loop of `bingrep_proc` performs, in order, threading
the state of the memory source: each region with its buffer when the read loop
succeeded, or with nothing when it failed. -/
def snapshots {σ : Type} (m : MemSource σ) :
    List (Nat × Nat) → σ → List ((Nat × Nat) × Option (List Byte))
  | [], _ => []
  | region :: rest, s =>
    match snapshot m s region with
    | none => []
    | some r => (region, if r.error then none else some r.filled) :: snapshots m rest r.state

/-- The lines one acquired region contributes to standard output: the offsets
found by `scan` in its buffer, translated by the start of the region with
`translate`; nothing for a region that could not be read. -/
def region_matches (opts : Opts) (translate : Nat → Nat → Nat)
    (x : (Nat × Nat) × Option (List Byte)) : List Nat :=
  match x.2 with
  | some d => (scan opts d).hits.map (translate x.1.1)
  | none => []

/-- A memory source for examples: the state is the file position, the bytes at
addresses `0x1000 … 0x1fff` are readable in one go and hold 1 at address
`0x1010` and 0 elsewhere, and a read at `0x3000` delivers `0x80` bytes after
which nothing more can be read. -/
def demo_mem : MemSource Nat where
  lseek := fun _ pos => pos
  read := fun pos count =>
    if 0x1000 ≤ pos ∧ pos + count ≤ 0x2000 then
      (⟨(count : Int), (List.range count).map fun k => if pos + k = 0x1010 then 1 else 0⟩,
        pos + count)
    else if pos = 0x3000 ∧ 0x80 ≤ count then
      (⟨0x80, List.replicate 0x80 0⟩, pos + 0x80)
    else (⟨0, []⟩, pos)

/-! ## Command line

`parse_opts` is modelled on the sequence of options that `getopt` delivers: each
is the option character (`'?'` for an unknown option or a missing argument)
with the text of its argument.  The conversions `atoi` and `strtoull` follow the
C library.
-/

/-- Wrap-around of an integer into the range of `int`. -/
def to_int32 (z : Int) : Int := (z + 2 ^ 31) % 2 ^ 32 - 2 ^ 31

/-- Value of a decimal digit character. -/
def dec_val (c : Char) : Option Nat :=
  if '0' ≤ c ∧ c ≤ '9' then some (c.toNat - 48) else none

/-- Value of the longest prefix of decimal digits, continuing from `acc`. -/
def dec_run : List Char → Nat → Nat
  | [], acc => acc
  | c :: cs, acc =>
    match dec_val c with
    | none => acc
    | some d => dec_run cs (10 * acc + d)

/-- The conversion `atoi(s)`, that is `(int) strtol(s, NULL, 10)`: white space is
skipped, a sign is read, then decimal digits; the `long` value saturates and
is cut to `int`. -/
def atoi (s : List Char) : Int :=
  let t := s.dropWhile is_space
  let signed : Bool × List Char :=
    match t with
    | '-' :: r => (true, r)
    | '+' :: r => (false, r)
    | _ => (false, t)
  let mag : Int := (dec_run signed.2 0 : Nat)
  let long : Int := if signed.1 then max (-mag) (-(2 ^ 63)) else min mag (2 ^ 63 - 1)
  to_int32 long

/-- The conversion `strtoull(s, nullptr, 16)`: white space is skipped, then an
optional sign, an optional `0x` and hexadecimal digits are read as by
`num_get_hex`; without digits the value is 0, on overflow it is the largest
`uint64_t`. -/
def strtoull16 (s : List Char) : Nat :=
  (num_get_hex (s.dropWhile is_space)).1

/-- The messages of `usage_fail`. -/
inductive Reason where
  /-- "Invalid value for -i" -/
  | invalid_i
  /-- "Invalid value for -w (should be 4 or 8)" -/
  | invalid_w
  /-- "-b not implemented", for `-b` and for `-a` -/
  | not_implemented
  /-- no message: the `default` case of the `switch` -/
  | unknown_option
  /-- "Exactly one of -f or -p has to be specified." -/
  | target
  /-- "-i not supported in conjuction with -f." -/
  | indirections_with_file
  /-- the message that either `-s`, `-e` or `-b`, `-a` need to be specified, but not both -/
  | pattern
  /-- "-s > -e, this makes no sense." -/
  | from_gt_to
  /-- "-e value is larger than pointer size." -/
  | to_too_large
deriving DecidableEq, Repr

/-- How `parse_opts` ends. -/
inductive ParseResult where
  /-- `parse_opts` returns, leaving this configuration in `opts` -/
  | accepted (opts : Opts)
  /-- `usage_fail`: usage text on standard error, `exit(EXIT_FAILURE)` -/
  | usage_fail (why : Reason)
  /-- `-h`: usage text on standard output, `exit(EXIT_SUCCESS)` -/
  | help
  /-- the shift `1ull << (8 * pointer_size)` has an amount outside `0 … 63` -/
  | undefined
deriving DecidableEq, Repr

/-- The exit status of the process when `parse_opts` does not return. -/
def exit_status : ParseResult → Option Nat
  | ParseResult.accepted _ => none
  | ParseResult.usage_fail _ => some 1
  | ParseResult.help => some 0
  | ParseResult.undefined => none

/-- One case of the `switch (c)` in the option loop: the updated `opts`, or the
way the process exits. -/
def handle_option (o : Opts) (c : Char) (optarg : List Char) : Except ParseResult Opts :=
  if c = 'h' then Except.error ParseResult.help
  else if c = 'f' then Except.ok { o with filename := optarg }
  else if c = 'p' then Except.ok { o with pid := atoi optarg }
  else if c = 'i' then
    if atoi optarg < 0 ∨ atoi optarg > 10 then
      Except.error (ParseResult.usage_fail Reason.invalid_i)
    else Except.ok { o with indirections := atoi optarg }
  else if c = 's' then Except.ok { o with «from» := strtoull16 optarg }
  else if c = 'e' then Except.ok { o with «to» := strtoull16 optarg }
  else if c = 'w' then
    if atoi optarg ≠ 4 ∧ atoi optarg ≠ 8 then
      Except.error (ParseResult.usage_fail Reason.invalid_w)
    else Except.ok { o with pointer_size := atoi optarg }
  else if c = 'b' then Except.error (ParseResult.usage_fail Reason.not_implemented)
  else if c = 'a' then Except.error (ParseResult.usage_fail Reason.not_implemented)
  else Except.error (ParseResult.usage_fail Reason.unknown_option)

/-- The loop `while ((c = getopt(…)) != -1) switch (c) { … }` over the options
delivered by `getopt`. -/
def getopt_loop : List (Char × List Char) → Opts → Except ParseResult Opts
  | [], o => Except.ok o
  | (c, optarg) :: rest, o =>
    match handle_option o c optarg with
    | Except.error r => Except.error r
    | Except.ok o1 => getopt_loop rest o1

/-- Conversion of a `bool` to `int`. -/
def bool_to_int (b : Bool) : Int := if b then 1 else 0

/-- The condition `(!opts.filename.empty()) ^ (!!opts.pid) == 0`; `==` binds
tighter than `^`, so it is `a ^ (b == 0)`. -/
def target_check (o : Opts) : Bool :=
  xor (decide (o.filename ≠ [])) (decide (bool_to_int (decide (o.pid ≠ 0)) = 0))

/-- The condition `(opts.from || opts.to) ^ !opts.pattern.empty() == 0`, again
`a ^ (b == 0)`. -/
def pattern_check (o : Opts) : Bool :=
  xor (decide (o.«from» ≠ 0) || decide (o.«to» ≠ 0))
    (decide (bool_to_int (decide (o.pattern ≠ [])) = 0))

/-- The value `1ull << amount`, defined for an amount in `0 … 63`. -/
def shl_one (amount : Int) : Option Nat :=
  if 0 ≤ amount ∧ amount < 64 then some (2 ^ amount.toNat % WORD) else none

/-- The five checks after the option loop, in order; each one that fires calls
`usage_fail`. -/
def validate (o : Opts) : ParseResult :=
  if target_check o then ParseResult.usage_fail Reason.target
  else if o.filename ≠ [] ∧ o.indirections ≠ 0 then
    ParseResult.usage_fail Reason.indirections_with_file
  else if pattern_check o then ParseResult.usage_fail Reason.pattern
  else if (o.«from» ≠ 0 ∨ o.«to» ≠ 0) ∧ o.«from» > o.«to» then
    ParseResult.usage_fail Reason.from_gt_to
  else if o.pointer_size < 8 then
    match shl_one (8 * o.pointer_size) with
    | none => ParseResult.undefined
    | some limit =>
      if o.«to» ≥ limit then ParseResult.usage_fail Reason.to_too_large
      else ParseResult.accepted o
  else ParseResult.accepted o

/-- The function `parse_opts`, started on the zero-initialised global `opts`
(with `pointer_size = 8`). -/
def parse_opts (args : List (Char × List Char)) : ParseResult :=
  match getopt_loop args {} with
  | Except.error r => r
  | Except.ok o => validate o

/-- What `parse_opts` maintains while reading options: no literal pattern is
ever stored, the pointer size is 4 or 8, and the indirections are in
`0 … 10`. -/
def LoopInvariant (o : Opts) : Prop :=
  o.pattern = [] ∧ (o.pointer_size = 4 ∨ o.pointer_size = 8) ∧
    0 ≤ o.indirections ∧ o.indirections ≤ 10

/-! ## Well-formed lines of the mapping table -/

/-- A line `<start_hex>-<end_hex><rest>` of a maps listing, cut into its parts. -/
structure MapsEntry where
  start_hex : List Char
  end_hex : List Char
  rest : List Char
deriving DecidableEq, Repr

/-- The text of the line. -/
def MapsEntry.line (e : MapsEntry) : List Char :=
  e.start_hex ++ '-' :: (e.end_hex ++ e.rest)

/-- Value of a hexadecimal numeral, most significant digit first, continuing
from `acc`; a character that is no digit counts as 0. -/
def hex_value_from (acc : Nat) (cs : List Char) : Nat :=
  cs.foldl (fun a c => 16 * a + (hex_val c).getD 0) acc

/-- Value of a hexadecimal numeral. -/
def hex_value (cs : List Char) : Nat := hex_value_from 0 cs

/-- The pair of values the line denotes. -/
def MapsEntry.region (e : MapsEntry) : Nat × Nat :=
  (hex_value e.start_hex, hex_value e.end_hex)

/-- The line has the form `<start_hex>-<end_hex>`, optionally followed by white
space and further fields: both numerals are non-empty strings of hexadecimal
digits, and what follows is empty or starts with white space. -/
def MapsEntry.WellFormed (e : MapsEntry) : Prop :=
  e.start_hex ≠ [] ∧ (∀ c ∈ e.start_hex, (hex_val c).isSome = true) ∧
  e.end_hex ≠ [] ∧ (∀ c ∈ e.end_hex, (hex_val c).isSome = true) ∧
  (∀ c ∈ e.rest.head?, is_space c = true)

/-- Both numerals of the line denote 64-bit values. -/
def MapsEntry.Fits (e : MapsEntry) : Prop :=
  hex_value e.start_hex < WORD ∧ hex_value e.end_hex < WORD

instance (e : MapsEntry) : Decidable e.WellFormed := by
  unfold MapsEntry.WellFormed; infer_instance

instance (e : MapsEntry) : Decidable e.Fits := by
  unfold MapsEntry.Fits; infer_instance

/-! ## Facts about the scanning loop -/

theorem usub_of_le {a b : Nat} (hb : b ≤ a) (ha : a < WORD) : usub a b = a - b := by
  unfold usub
  have hb' : b < WORD := lt_of_le_of_lt hb ha
  rw [Nat.mod_eq_of_lt ha, Nat.mod_eq_of_lt hb']
  have h : a + (WORD - b) = (a - b) + WORD := by omega
  rw [h, Nat.add_mod_right]
  exact Nat.mod_eq_of_lt (by omega)

theorem memcmp_eq_zero_iff : ∀ (a b : List Byte), a.length = b.length →
    (memcmp a b = 0 ↔ a = b)
  | [], [], _ => by simp [memcmp]
  | [], _ :: _, h => by simp at h
  | _ :: _, [], h => by simp at h
  | x :: xs, y :: ys, h => by
    have hl : xs.length = ys.length := by simpa using h
    by_cases hxy : x = y
    · simp [memcmp, hxy, memcmp_eq_zero_iff xs ys hl]
    · have hv : (x.val : Int) ≠ (y.val : Int) := by
        intro hc
        exact hxy (Fin.ext (by exact_mod_cast hc))
      simp only [memcmp, hxy, if_false, List.cons.injEq, false_and, iff_false]
      omega

theorem window_of_le {data : List Byte} {i n : Nat} (h : i + n ≤ data.length) :
    window data i n = some ((data.drop i).take n) := by
  simp [window, h]

theorem window_of_lt {data : List Byte} {i n : Nat} (h : data.length < i + n) :
    window data i n = none := by
  simp [window, Nat.not_le.mpr h]

theorem length_slice {data : List Byte} {i n : Nat} (h : i + n ≤ data.length) :
    ((data.drop i).take n).length = n := by
  simp [List.length_take, List.length_drop]; omega

/-- A loop whose tests all succeed up to `bound` runs to completion: it tests
`i, i+1, …, bound` and calls back on those satisfying the test. -/
theorem scan_loop_done (test : Nat → Option Bool) (p : Nat → Bool) (bound : Nat)
    (hb : bound + 1 < WORD) (ht : ∀ i, i ≤ bound → test i = some (p i)) :
    ∀ fuel i, i ≤ bound + 1 → bound + 2 ≤ fuel + i →
      scan_loop test bound fuel i =
        ⟨List.range' i (bound + 1 - i), (List.range' i (bound + 1 - i)).filter p,
          Status.done⟩
  | 0, i, h1, h2 => by omega
  | fuel + 1, i, h1, h2 => by
    by_cases hi : i ≤ bound
    · have hmod : (i + 1) % WORD = i + 1 := Nat.mod_eq_of_lt (by omega)
      have hcnt : bound + 1 - i = (bound + 1 - (i + 1)) + 1 := by omega
      have ih := scan_loop_done test p bound hb ht fuel (i + 1) (by omega) (by omega)
      rw [scan_loop, if_pos hi, ht i hi]
      simp only [hmod, ih]
      rw [hcnt, List.range'_succ, List.filter_cons]
    · have hz : bound + 1 - i = 0 := by omega
      rw [scan_loop, if_neg hi, hz]
      rfl

/-- A loop whose first window reaches outside the buffer stops there. -/
theorem scan_loop_fault (test : Nat → Option Bool) (bound fuel : Nat) (h : test 0 = none) :
    scan_loop test bound (fuel + 1) 0 = ⟨[0], [], Status.fault 0⟩ := by
  rw [scan_loop, if_pos (Nat.zero_le _), h]

/-- Closed form of a literal scan of a buffer at least as long as the pattern. -/
theorem scan_literal_run (opts : Opts) (B : List Byte) (hP : opts.pattern ≠ [])
    (hlen : opts.pattern.length ≤ B.length) (hsz : B.length < WORD) :
    scan opts B =
      ⟨List.range (B.length - opts.pattern.length + 1),
        (List.range (B.length - opts.pattern.length + 1)).filter
          (fun o => decide (slice B o opts.pattern.length = opts.pattern)),
        Status.done⟩ := by
  have hpos : 0 < opts.pattern.length := List.length_pos.mpr hP
  have hrun := scan_loop_done (test_literal opts B)
    (fun o => decide (slice B o opts.pattern.length = opts.pattern))
    (B.length - opts.pattern.length) (by omega)
    (by
      intro i hi
      have hin : i + opts.pattern.length ≤ B.length := by omega
      simp only [test_literal, window_of_le hin, Option.map_some', slice]
      congr 1
      have hiff := memcmp_eq_zero_iff _ opts.pattern (length_slice hin)
      by_cases hc : (B.drop i).take opts.pattern.length = opts.pattern
      · have h0 := hiff.mpr hc
        rw [hc] at h0
        simp [hc, h0]
      · have hne : ¬ memcmp ((B.drop i).take opts.pattern.length) opts.pattern = 0 :=
          fun h0 => hc (hiff.mp h0)
        simp [hc, hne])
    (B.length + 2) 0 (by omega) (by omega)
  simp only [scan, if_pos hP, usub_of_le hlen hsz]
  rw [hrun, List.range_eq_range']
  rfl

/-- Closed form of a range scan of a buffer at least as long as the pointer width. -/
theorem scan_range_run (opts : Opts) (B : List Byte) (w : Nat) (hP : opts.pattern = [])
    (hw : w = 4 ∨ w = 8) (hps : opts.pointer_size = (w : Int))
    (hlen : w ≤ B.length) (hsz : B.length < WORD) :
    scan opts B =
      ⟨List.range (B.length - w + 1),
        (List.range (B.length - w + 1)).filter
          (fun o => decide (opts.«from» ≤ le_decode (slice B o w)) &&
            decide (le_decode (slice B o w) ≤ opts.«to»)),
        Status.done⟩ := by
  have hrun := scan_loop_done (test_range opts w B)
    (fun o => decide (opts.«from» ≤ le_decode (slice B o w)) &&
      decide (le_decode (slice B o w) ≤ opts.«to»))
    (B.length - w) (by omega)
    (by
      intro i hi
      have hin : i + w ≤ B.length := by omega
      simp only [test_range, window_of_le hin, Option.map_some', slice, ge_iff_le])
    (B.length + 2) 0 (by omega) (by omega)
  rcases hw with rfl | rfl
  · simp only [scan, hP, ne_eq, not_true_eq_false, if_false, hps, Nat.cast_ofNat, if_true,
      usub_of_le hlen hsz]
    rw [hrun, List.range_eq_range']
    rfl
  · have h84 : ¬ ((8 : Int) = 4) := by decide
    simp only [scan, hP, ne_eq, not_true_eq_false, if_false, hps, Nat.cast_ofNat, h84, if_true,
      usub_of_le hlen hsz]
    rw [hrun, List.range_eq_range']
    rfl

/-- A buffer shorter than the window makes the very first window test read
outside the buffer: `size - step` wraps around and the loop is entered. -/
theorem scan_short_buffer (opts : Opts) (B : List Byte) (hv : ValidPattern opts)
    (hlen : B.length < step opts) :
    scan opts B = ⟨[0], [], Status.fault 0⟩ := by
  unfold step at hlen
  by_cases hP : opts.pattern ≠ []
  · rw [if_pos hP] at hlen
    simp only [scan, if_pos hP]
    have hw : window B 0 opts.pattern.length = none := window_of_lt (by omega)
    exact scan_loop_fault _ _ _ (by simp [test_literal, hw])
  · rw [if_neg hP] at hlen
    rcases hv with h | h | h
    · exact absurd h hP
    · rw [h] at hlen
      simp only [scan, if_neg hP, h, if_true]
      exact scan_loop_fault _ _ _
        (by simp [test_range, window_of_lt (show B.length < 0 + 4 by simpa using hlen)])
    · rw [h] at hlen
      have h84 : ¬ ((8 : Int) = 4) := by decide
      simp only [scan, if_neg hP, h, h84, if_false, if_true]
      exact scan_loop_fault _ _ _
        (by simp [test_range, window_of_lt (show B.length < 0 + 8 by simpa using hlen)])

theorem le_decode_lt : ∀ (l : List Byte), le_decode l < 256 ^ l.length
  | [] => by simp [le_decode]
  | b :: bs => by
    have ih := le_decode_lt bs
    have hb := b.isLt
    simp only [le_decode, List.length_cons, pow_succ]
    omega

/-- Every run of `scan` on a valid pattern over a long enough buffer tests the
offsets `0 … size - step` and calls back on a filtered sublist of them. -/
theorem scan_valid_run (opts : Opts) (B : List Byte) (hv : ValidPattern opts)
    (hlen : step opts ≤ B.length) (hsz : B.length < WORD) :
    ∃ p : Nat → Bool, scan opts B =
      ⟨List.range (B.length - step opts + 1),
        (List.range (B.length - step opts + 1)).filter p, Status.done⟩ := by
  by_cases hP : opts.pattern ≠ []
  · have hs : step opts = opts.pattern.length := by simp [step, hP]
    rw [hs] at hlen ⊢
    exact ⟨_, scan_literal_run opts B hP hlen hsz⟩
  · have hP' : opts.pattern = [] := by simpa using hP
    rcases hv with h | h | h
    · exact absurd h hP
    · have hs : step opts = 4 := by simp [step, hP', h]
      rw [hs] at hlen ⊢
      exact ⟨_, scan_range_run opts B 4 hP' (Or.inl rfl) (by simpa using h) hlen hsz⟩
    · have hs : step opts = 8 := by simp [step, hP', h]
      rw [hs] at hlen ⊢
      exact ⟨_, scan_range_run opts B 8 hP' (Or.inr rfl) (by simpa using h) hlen hsz⟩

/-- The iteration budget of `scan` is never exhausted on a buffer that fits
`size_t`: the run ends in `done`, in a `fault` or in `aborted`. -/
theorem scan_status (opts : Opts) (B : List Byte) (hsz : B.length < WORD) :
    (scan opts B).status = Status.done ∨ (scan opts B).status = Status.fault 0 ∨
      (scan opts B).status = Status.aborted := by
  by_cases hv : ValidPattern opts
  · by_cases hlen : step opts ≤ B.length
    · obtain ⟨p, hrun⟩ := scan_valid_run opts B hv hlen hsz
      rw [hrun]
      exact Or.inl rfl
    · rw [scan_short_buffer opts B hv (by omega)]
      exact Or.inr (Or.inl rfl)
  · have h1 : ¬ opts.pattern ≠ [] := fun h => hv (Or.inl h)
    have h2 : ¬ opts.pointer_size = 4 := fun h => hv (Or.inr (Or.inl h))
    have h3 : ¬ opts.pointer_size = 8 := fun h => hv (Or.inr (Or.inr h))
    have hs : scan opts B = ⟨[], [], Status.aborted⟩ := by
      simp only [scan, if_neg h1, if_neg h2, if_neg h3]
    rw [hs]
    exact Or.inr (Or.inr rfl)

/-! ## The scanning loop: main results -/

/-- C1: a literal scan is exact.  For a non-empty pattern `P` no longer than the
buffer `B`, `scan` finishes and the offsets passed to the callback are, in
ascending order, exactly the offsets `o` of `[0, len B - len P]` (last window
included) with `B[o .. o + len P) = P`, each of them once. -/
theorem scan_literal_exact (opts : Opts) (B : List Byte) (hP : opts.pattern ≠ [])
    (hlen : opts.pattern.length ≤ B.length) (hsz : B.length < WORD) :
    (scan opts B).status = Status.done ∧
    (scan opts B).hits =
      (List.range (B.length - opts.pattern.length + 1)).filter
        (fun o => decide (slice B o opts.pattern.length = opts.pattern)) ∧
    (∀ o, o ∈ (scan opts B).hits ↔
      o ≤ B.length - opts.pattern.length ∧ slice B o opts.pattern.length = opts.pattern) ∧
    (scan opts B).hits.Pairwise (· < ·) ∧
    (∀ o ∈ (scan opts B).hits, (scan opts B).hits.count o = 1) := by
  rw [scan_literal_run opts B hP hlen hsz]
  refine ⟨rfl, rfl, ?_, ?_, ?_⟩
  · intro o
    simp only [List.mem_filter, List.mem_range, decide_eq_true_eq]
    constructor
    · rintro ⟨h1, h2⟩
      exact ⟨by omega, h2⟩
    · rintro ⟨h1, h2⟩
      exact ⟨by omega, h2⟩
  · exact (List.pairwise_lt_range _).filter _
  · intro o ho
    exact List.count_eq_one_of_mem ((List.nodup_range _).filter _) ho

theorem scan_literal_exact_witness :
    ({ pattern := [1] } : Opts).pattern ≠ [] ∧
    ({ pattern := [1] } : Opts).pattern.length ≤ ([0, 1, 2, 1, 0] : List Byte).length ∧
    ([0, 1, 2, 1, 0] : List Byte).length < WORD ∧
    (scan { pattern := [1] } [0, 1, 2, 1, 0]).status = Status.done ∧
    (scan { pattern := [1] } [0, 1, 2, 1, 0]).hits = [1, 3] :=
  have h := scan_literal_exact { pattern := [1] } [0, 1, 2, 1, 0]
    (by decide) (by decide) (by decide)
  ⟨by decide, by decide, by decide, h.1, h.2.1.trans (by decide)⟩

/-- C2: a range scan is exact.  For width `w` of 4 or 8, any bounds and a buffer
of at least `w` bytes, `scan` finishes and an offset `o` is passed to the
callback iff `o + w ≤ len B` and the unsigned little-endian value `v` of
`B[o .. o + w)` satisfies `from ≤ v ≤ to`; that value is below `256 ^ w`, and when
`from = to` only the exact value matches. -/
theorem scan_range_exact (opts : Opts) (B : List Byte) (w : Nat) (hw : w = 4 ∨ w = 8)
    (hP : opts.pattern = []) (hps : opts.pointer_size = (w : Int))
    (hlen : w ≤ B.length) (hsz : B.length < WORD) :
    (scan opts B).status = Status.done ∧
    (∀ o, o ∈ (scan opts B).hits ↔
      o + w ≤ B.length ∧ opts.«from» ≤ le_decode (slice B o w) ∧
        le_decode (slice B o w) ≤ opts.«to») ∧
    (∀ o, o + w ≤ B.length → le_decode (slice B o w) < 256 ^ w) ∧
    (opts.«from» = opts.«to» → ∀ o, o ∈ (scan opts B).hits ↔
      o + w ≤ B.length ∧ le_decode (slice B o w) = opts.«from») := by
  rw [scan_range_run opts B w hP hw hps hlen hsz]
  have hmem : ∀ o, o ∈ (List.range (B.length - w + 1)).filter
        (fun o => decide (opts.«from» ≤ le_decode (slice B o w)) &&
          decide (le_decode (slice B o w) ≤ opts.«to»)) ↔
      o + w ≤ B.length ∧ opts.«from» ≤ le_decode (slice B o w) ∧
        le_decode (slice B o w) ≤ opts.«to» := by
    intro o
    simp only [List.mem_filter, List.mem_range, Bool.and_eq_true, decide_eq_true_eq]
    constructor
    · rintro ⟨h1, h2⟩
      exact ⟨by omega, h2⟩
    · rintro ⟨h1, h2⟩
      exact ⟨by omega, h2⟩
  refine ⟨rfl, hmem, ?_, ?_⟩
  · intro o ho
    have h := le_decode_lt (slice B o w)
    have hl : (slice B o w).length = w := length_slice ho
    rwa [hl] at h
  · intro heq o
    rw [hmem o, heq]
    constructor
    · rintro ⟨h1, h2, h3⟩
      exact ⟨h1, le_antisymm h3 h2⟩
    · rintro ⟨h1, h2⟩
      exact ⟨h1, h2.ge, h2.le⟩

theorem scan_range_exact_witness :
    ((8 : Nat) = 4 ∨ (8 : Nat) = 8) ∧
    ({ «from» := 0x1000, «to» := 0x1000 } : Opts).pattern = [] ∧
    ({ «from» := 0x1000, «to» := 0x1000 } : Opts).pointer_size = ((8 : Nat) : Int) ∧
    8 ≤ ([0, 0x10, 0, 0, 0, 0, 0, 0] : List Byte).length ∧
    ([0, 0x10, 0, 0, 0, 0, 0, 0] : List Byte).length < WORD ∧
    (scan { «from» := 0x1000, «to» := 0x1000 } [0, 0x10, 0, 0, 0, 0, 0, 0]).status
      = Status.done ∧
    (scan { «from» := 0x1000, «to» := 0x1000 } [0, 0x10, 0, 0, 0, 0, 0, 0]).hits = [0] ∧
    (0 ∈ (scan { «from» := 0x1000, «to» := 0x1000 } [0, 0x10, 0, 0, 0, 0, 0, 0]).hits ↔
      0 + 8 ≤ ([0, 0x10, 0, 0, 0, 0, 0, 0] : List Byte).length ∧
      le_decode (slice [0, 0x10, 0, 0, 0, 0, 0, 0] 0 8) = 0x1000) :=
  have h := scan_range_exact { «from» := 0x1000, «to» := 0x1000 } [0, 0x10, 0, 0, 0, 0, 0, 0] 8
    (by decide) (by decide) (by decide) (by decide) (by decide)
  ⟨by decide, by decide, by decide, by decide, by decide, h.1, by decide, h.2.2.2 rfl 0⟩

/-- C3 (what the code does): on a one-byte buffer with the default 8-byte range
pattern, `size - 8` wraps around to `2^64 - 7`, the loop is entered and the
window test at offset 0 reads outside the buffer. -/
theorem scan_one_byte_buffer_faults :
    usub ([0x41] : List Byte).length 8 = 2 ^ 64 - 7 ∧
    scan { «from» := 1, «to» := 1 } [0x41] = ⟨[0], [], Status.fault 0⟩ := by
  constructor
  · decide
  · decide

/-- C4: under the length contract `step ≤ len B`, `scan` never reads outside
the buffer: it finishes, every window it tests lies inside the buffer, and it
tests exactly the `len B - step + 1` offsets `0, 1, …, len B - step`. -/
theorem scan_within_bounds (opts : Opts) (B : List Byte) (hv : ValidPattern opts)
    (hlen : step opts ≤ B.length) (hsz : B.length < WORD) :
    (scan opts B).status = Status.done ∧
    (∀ o ∈ (scan opts B).tested, o + step opts ≤ B.length) ∧
    (scan opts B).tested.length = B.length - step opts + 1 ∧
    (scan opts B).tested = List.range (B.length - step opts + 1) := by
  obtain ⟨p, hrun⟩ := scan_valid_run opts B hv hlen hsz
  rw [hrun]
  refine ⟨rfl, ?_, by simp, rfl⟩
  intro o ho
  have := List.mem_range.mp ho
  omega

theorem scan_within_bounds_witness :
    ValidPattern { pattern := [1] } ∧
    step { pattern := [1] } ≤ ([0, 1, 2, 1, 0] : List Byte).length ∧
    ([0, 1, 2, 1, 0] : List Byte).length < WORD ∧
    (scan { pattern := [1] } [0, 1, 2, 1, 0]).status = Status.done ∧
    (scan { pattern := [1] } [0, 1, 2, 1, 0]).tested.length = 5 :=
  have h := scan_within_bounds { pattern := [1] } [0, 1, 2, 1, 0]
    (by decide) (by decide) (by decide)
  ⟨by decide, by decide, by decide, h.1, h.2.2.1⟩

/-- C5 as stated fails: on the two-byte buffer `00 01` the literal `01` is found
at offset 1, which is not below `len - step = 1`. -/
theorem scan_half_open_interval_fails :
    1 ∈ (scan { pattern := [1] } [0, 1]).hits ∧
    (scan { pattern := [1] } [0, 1]).tested = [0, 1] ∧
    ¬ (1 < ([0, 1] : List Byte).length - step { pattern := [1] }) := by
  refine ⟨?_, ?_, ?_⟩ <;> decide

/-- C5 amended: for a valid pattern with `step ≤ len B`, the offsets `scan`
tests are exactly those of the closed interval `[0, len B - step]`, and every
offset passed to the callback satisfies `o ≤ len B - step`. -/
theorem scan_closed_interval (opts : Opts) (B : List Byte) (hv : ValidPattern opts)
    (hlen : step opts ≤ B.length) (hsz : B.length < WORD) :
    (∀ o, o ∈ (scan opts B).tested ↔ o ≤ B.length - step opts) ∧
    (∀ o ∈ (scan opts B).hits, o ≤ B.length - step opts) := by
  obtain ⟨p, hrun⟩ := scan_valid_run opts B hv hlen hsz
  rw [hrun]
  constructor
  · intro o
    simp only [List.mem_range]
    omega
  · intro o ho
    have := List.mem_range.mp (List.mem_filter.mp ho).1
    omega

theorem scan_closed_interval_witness :
    ValidPattern { pattern := [1] } ∧
    step { pattern := [1] } ≤ ([0, 1] : List Byte).length ∧
    ([0, 1] : List Byte).length < WORD ∧
    (1 ∈ (scan { pattern := [1] } [0, 1]).tested ↔
      1 ≤ ([0, 1] : List Byte).length - step { pattern := [1] }) :=
  have h := scan_closed_interval { pattern := [1] } [0, 1] (by decide) (by decide) (by decide)
  ⟨by decide, by decide, by decide, h.1 1⟩

/-- C8: for every valid pattern (literal, range of width 4, range of width 8)
with `step ≤ len B`, the offsets passed to the callback are strictly
increasing, hence without repetition. -/
theorem scan_hits_increasing (opts : Opts) (B : List Byte) (hv : ValidPattern opts)
    (hlen : step opts ≤ B.length) (hsz : B.length < WORD) :
    (scan opts B).hits.Pairwise (· < ·) ∧ (scan opts B).hits.Nodup := by
  obtain ⟨p, hrun⟩ := scan_valid_run opts B hv hlen hsz
  rw [hrun]
  exact ⟨(List.pairwise_lt_range _).filter _, (List.nodup_range _).filter _⟩

theorem scan_hits_increasing_witness :
    ValidPattern { «from» := 0, «to» := 0xff, pointer_size := 4 } ∧
    step { «from» := 0, «to» := 0xff, pointer_size := 4 } ≤
      ([1, 0, 0, 0, 0, 7] : List Byte).length ∧
    ([1, 0, 0, 0, 0, 7] : List Byte).length < WORD ∧
    (scan { «from» := 0, «to» := 0xff, pointer_size := 4 } [1, 0, 0, 0, 0, 7]).hits = [0, 1] ∧
    (scan { «from» := 0, «to» := 0xff, pointer_size := 4 } [1, 0, 0, 0, 0, 7]).hits.Pairwise
      (· < ·) :=
  have h := scan_hits_increasing { «from» := 0, «to» := 0xff, pointer_size := 4 }
    [1, 0, 0, 0, 0, 7] (by decide) (by decide) (by decide)
  ⟨by decide, by decide, by decide, by decide, h.1⟩

/-! ## Process mode: acquisition and scanning of regions -/

/-- The read loop under the contract of `read`, started with `remaining` bytes
to go and enough budget. -/
theorem read_loop_spec {σ : Type} (m : MemSource σ) (hc : ReadContract m) :
    ∀ (fuel : Nat) (s : σ) (remaining : Nat) (filled : List Byte),
      remaining ≤ fuel → remaining < WORD →
      ∃ run, read_loop m fuel s remaining filled = some run ∧
        (run.error = false ↔ ∀ e ∈ run.log, 0 < e.2) ∧
        (run.error = false → run.filled.length = filled.length + remaining ∧
          run.remaining = 0) ∧
        (run.error = true → ∃ pre c r, run.log = pre ++ [(c, r)] ∧ r ≤ 0 ∧ 0 < c ∧
          (∀ e ∈ pre, 0 < e.2) ∧ run.filled.length + c = filled.length + remaining ∧
          run.remaining = c)
  | 0, s, remaining, filled, h1, _ => by
    have h0 : remaining = 0 := by omega
    subst h0
    exact ⟨⟨false, filled, 0, [], s⟩, by simp [read_loop], by simp, by simp, by simp⟩
  | fuel + 1, s, remaining, filled, h1, h2 => by
    by_cases h0 : remaining = 0
    · subst h0
      exact ⟨⟨false, filled, 0, [], s⟩, by simp [read_loop], by simp, by simp, by simp⟩
    · by_cases hres : (m.read s remaining).1.res ≤ 0
      · refine ⟨⟨true, filled, remaining, [(remaining, (m.read s remaining).1.res)],
          (m.read s remaining).2⟩, by simp [read_loop, h0, hres], ?_, by simp, ?_⟩
        · simp only [Bool.true_eq_false, List.mem_singleton, forall_eq, false_iff, not_lt]
          exact hres
        · intro _
          exact ⟨[], remaining, (m.read s remaining).1.res, by simp, hres, by omega,
            by simp, rfl, rfl⟩
      · have hpos : 0 < (m.read s remaining).1.res := by omega
        obtain ⟨hle, hbytes⟩ := hc s remaining hpos
        obtain ⟨k, hkdef⟩ : ∃ k, k = (m.read s remaining).1.res.toNat := ⟨_, rfl⟩
        rw [← hkdef] at hbytes
        have hk : k ≤ remaining := by omega
        have hk1 : 1 ≤ k := by omega
        obtain ⟨run, hrun, hA, hB, hC⟩ := read_loop_spec m hc fuel (m.read s remaining).2
          (remaining - k) (filled ++ (m.read s remaining).1.bytes) (by omega) (by omega)
        refine ⟨{ run with log := (remaining, (m.read s remaining).1.res) :: run.log }, ?_, ?_,
          ?_, ?_⟩
        · simp [read_loop, h0, hres, ← hkdef, usub_of_le hk h2, hrun]
        · simp only [List.mem_cons, forall_eq_or_imp, hpos, true_and]
          exact hA
        · intro he
          have := hB he
          simp only [List.length_append, hbytes] at this
          show run.filled.length = filled.length + remaining ∧ run.remaining = 0
          exact ⟨by omega, this.2⟩
        · intro he
          obtain ⟨pre, c, r, hlog, hr, hcpos, hpre, hlen, hrem⟩ := hC he
          refine ⟨(remaining, (m.read s remaining).1.res) :: pre, c, r, by simp [hlog], hr,
            hcpos, ?_, ?_, hrem⟩
          · intro e he'
            rcases List.mem_cons.mp he' with h | h
            · rw [h]; exact hpos
            · exact hpre e h
          · simp only [List.length_append, hbytes] at hlen
            show run.filled.length + c = filled.length + remaining
            omega

theorem usub_lt (a b : Nat) : usub a b < WORD :=
  Nat.mod_lt _ (by decide)

theorem demo_contract : ReadContract demo_mem := by
  intro s count
  simp only [demo_mem]
  split_ifs with h1 h2
  · intro _
    simp
  · intro _
    obtain ⟨_, h80⟩ := h2
    refine ⟨?_, by simp⟩
    have : ((0x80 : Nat) : Int) ≤ (count : Int) := by exact_mod_cast h80
    simpa using this
  · intro h
    simp at h

/-- Under the contract of `read` the acquisition of a region always ends. -/
theorem snapshot_spec {σ : Type} (m : MemSource σ) (hc : ReadContract m) (s : σ)
    (region : Nat × Nat) :
    ∃ run, snapshot m s region = some run ∧
      (run.error = false ↔ ∀ e ∈ run.log, 0 < e.2) ∧
      (run.error = false → run.filled.length = usub region.2 region.1) ∧
      (run.error = true → ∃ pre c r, run.log = pre ++ [(c, r)] ∧ r ≤ 0 ∧ 0 < c ∧
        (∀ e ∈ pre, 0 < e.2) ∧ run.filled.length + c = usub region.2 region.1) := by
  obtain ⟨run, h1, h2, h3, h4⟩ := read_loop_spec m hc (usub region.2 region.1)
    (m.lseek s region.1) (usub region.2 region.1) [] (le_refl _) (usub_lt _ _)
  refine ⟨run, h1, h2, ?_, ?_⟩
  · intro he
    simpa using (h3 he).1
  · intro he
    obtain ⟨pre, c, r, hlog, hr, hcpos, hpre, hlen, _⟩ := h4 he
    exact ⟨pre, c, r, hlog, hr, hcpos, hpre, by simpa using hlen⟩

theorem flatMap_congr_mem {α β : Type} (f g : α → List β) :
    ∀ (l : List α), (∀ x ∈ l, f x = g x) → l.flatMap f = l.flatMap g
  | [], _ => rfl
  | a :: l, h => by
    rw [List.flatMap_cons, List.flatMap_cons, h a (List.mem_cons_self _ _),
      flatMap_congr_mem f g l (fun x hx => h x (List.mem_cons_of_mem _ hx))]

/-- Every acquisition listed by `snapshots` belongs to a region of the list, and
an acquired buffer has the size of its region. -/
theorem snapshots_sound {σ : Type} (m : MemSource σ) (hc : ReadContract m) :
    ∀ (regions : List (Nat × Nat)) (s : σ), ∀ x ∈ snapshots m regions s,
      x.1 ∈ regions ∧ ∀ d, x.2 = some d → d.length = usub x.1.2 x.1.1
  | [], _, x, hx => by simp [snapshots] at hx
  | region :: rest, s, x, hx => by
    obtain ⟨run, hrun, _, hlen, _⟩ := snapshot_spec m hc s region
    simp only [snapshots, hrun, List.mem_cons] at hx
    rcases hx with hx | hx
    · subst hx
      refine ⟨List.mem_cons_self _ _, ?_⟩
      intro d hd
      by_cases he : run.error = true
      · simp [he] at hd
      · have he' : run.error = false := by simpa using he
        simp only [he', Bool.false_eq_true, if_false, Option.some.injEq] at hd
        rw [← hd]
        exact hlen he'
    · have ih := snapshots_sound m hc rest run.state x hx
      exact ⟨List.mem_cons_of_mem _ ih.1, ih.2⟩

/-- The loop of `bingrep_proc` in terms of the acquisitions it performs. -/
theorem proc_loop_spec {σ : Type} (opts : Opts) (m : MemSource σ) (hc : ReadContract m)
    (hv : ValidPattern opts) :
    ∀ (regions : List (Nat × Nat)) (s : σ),
      (∀ x ∈ snapshots m regions s, ∀ d, x.2 = some d → step opts ≤ d.length) →
      (proc_loop opts m regions s).status = Status.done ∧
      (snapshots m regions s).map Prod.fst = regions ∧
      (proc_loop opts m regions s).out =
        (snapshots m regions s).flatMap (region_matches opts uadd) ∧
      (proc_loop opts m regions s).warnings =
        ((snapshots m regions s).filter fun x => x.2.isNone).map Prod.fst ∧
      (proc_loop opts m regions s).scanned = (snapshots m regions s).filterMap Prod.snd
  | [], s, _ => by simp [proc_loop, snapshots]
  | region :: rest, s, hsnap => by
    obtain ⟨run, hrun, _, hlen, _⟩ := snapshot_spec m hc s region
    have hrest : ∀ x ∈ snapshots m rest run.state, ∀ d, x.2 = some d → step opts ≤ d.length := by
      intro x hx
      apply hsnap
      simp only [snapshots, hrun]
      exact List.mem_cons_of_mem _ hx
    obtain ⟨i1, i2, i3, i4, i5⟩ := proc_loop_spec opts m hc hv rest run.state hrest
    by_cases he : run.error = true
    · simp only [proc_loop, snapshots, hrun, he, if_true]
      refine ⟨i1, by simp [i2], ?_, ?_, ?_⟩
      · simp [List.flatMap_cons, region_matches, i3]
      · simp [List.filter_cons, i4]
      · simp [List.filterMap_cons, i5]
    · have he' : run.error = false := by simpa using he
      have hstep : step opts ≤ run.filled.length := by
        apply hsnap (region, some run.filled)
        · simp [snapshots, hrun, he']
        · rfl
      have hsz : run.filled.length < WORD := by
        rw [hlen he']
        exact usub_lt _ _
      obtain ⟨p, hscan⟩ := scan_valid_run opts run.filled hv hstep hsz
      have hdone : (scan opts run.filled).status = Status.done := by rw [hscan]
      simp only [proc_loop, snapshots, hrun, he', Bool.false_eq_true, if_false, hdone, if_true]
      refine ⟨i1, by simp [i2], ?_, ?_, ?_⟩
      · simp [List.flatMap_cons, region_matches, i3]
      · simp [List.filter_cons, i4]
      · simp [List.filterMap_cons, i5]

/-- Translating an offset found in an acquired buffer of a well-formed region
does not wrap around. -/
theorem region_matches_plain {σ : Type} (opts : Opts) (m : MemSource σ) (hc : ReadContract m)
    (hv : ValidPattern opts) (regions : List (Nat × Nat)) (s : σ)
    (hsnap : ∀ x ∈ snapshots m regions s, ∀ d, x.2 = some d → step opts ≤ d.length)
    (hreg : ∀ r ∈ regions, r.1 ≤ r.2 ∧ r.2 < WORD) :
    ∀ x ∈ snapshots m regions s,
      region_matches opts uadd x = region_matches opts (fun a o => a + o) x := by
  intro x hx
  obtain ⟨hmem, hlen⟩ := snapshots_sound m hc regions s x hx
  obtain ⟨hle, hlt⟩ := hreg x.1 hmem
  cases hx2 : x.2 with
  | none => simp [region_matches, hx2]
  | some d =>
    simp only [region_matches, hx2]
    apply List.map_congr_left
    intro o ho
    have hd : d.length = x.1.2 - x.1.1 := by rw [hlen d hx2, usub_of_le hle hlt]
    have hsz : d.length < WORD := by omega
    obtain ⟨p, hscan⟩ := scan_valid_run opts d hv (hsnap x hx d hx2) hsz
    rw [hscan] at ho
    have := List.mem_range.mp (List.mem_filter.mp ho).1
    exact Nat.mod_eq_of_lt (by omega)

/-- C6: the process scan skips unreadable regions and translates offsets.  For
every list of regions and every memory source honouring the contract of `read`,
when each acquired buffer is at least `step` bytes long, the loop finishes, it
acquires every region of the list in order (a failed read does not stop it),
the addresses printed are the concatenation in region order of
`start + o` (64-bit addition) for the offsets `o` that `scan` finds in each
acquired buffer, the regions whose read failed contribute nothing and are
exactly the ones warned about, and `scan` runs on exactly the acquired buffers.
For regions with `start ≤ end < 2^64` the 64-bit addition is the plain sum. -/
theorem proc_loop_skips_unreadable {σ : Type} (opts : Opts) (m : MemSource σ)
    (hc : ReadContract m) (hv : ValidPattern opts) (regions : List (Nat × Nat)) (s : σ)
    (hsnap : ∀ x ∈ snapshots m regions s, ∀ d, x.2 = some d → step opts ≤ d.length) :
    (proc_loop opts m regions s).status = Status.done ∧
    (snapshots m regions s).map Prod.fst = regions ∧
    (proc_loop opts m regions s).out =
      (snapshots m regions s).flatMap (region_matches opts uadd) ∧
    (proc_loop opts m regions s).warnings =
      ((snapshots m regions s).filter fun x => x.2.isNone).map Prod.fst ∧
    (proc_loop opts m regions s).scanned = (snapshots m regions s).filterMap Prod.snd ∧
    ((∀ r ∈ regions, r.1 ≤ r.2 ∧ r.2 < WORD) →
      (proc_loop opts m regions s).out =
        (snapshots m regions s).flatMap (region_matches opts fun a o => a + o)) := by
  obtain ⟨h1, h2, h3, h4, h5⟩ := proc_loop_spec opts m hc hv regions s hsnap
  refine ⟨h1, h2, h3, h4, h5, ?_⟩
  intro hreg
  rw [h3]
  exact flatMap_congr_mem _ _ _ (region_matches_plain opts m hc hv regions s hsnap hreg)

theorem demo_snapshots_long :
    ∀ x ∈ snapshots demo_mem [(0x1000, 0x2000), (0x3000, 0x3100)] 0,
      ∀ d, x.2 = some d → step { pattern := [1] } ≤ d.length := by
  intro x hx d hd
  obtain ⟨hmem, hlen⟩ := snapshots_sound demo_mem demo_contract _ _ x hx
  rw [hlen d hd]
  have hs : step { pattern := [1] } = 1 := by decide
  rw [hs]
  simp only [List.mem_cons, List.mem_singleton, List.not_mem_nil, or_false] at hmem
  rcases hmem with h | h <;> rw [h] <;> decide

set_option maxRecDepth 20000 in
theorem proc_loop_skips_unreadable_witness :
    ReadContract demo_mem ∧ ValidPattern { pattern := [1] } ∧
    (proc_loop { pattern := [1] } demo_mem [(0x1000, 0x2000), (0x3000, 0x3100)] 0).status
      = Status.done ∧
    (snapshots demo_mem [(0x1000, 0x2000), (0x3000, 0x3100)] 0).map
      (fun x => (x.1, x.2.isSome)) = [((0x1000, 0x2000), true), ((0x3000, 0x3100), false)] ∧
    (proc_loop { pattern := [1] } demo_mem [(0x1000, 0x2000), (0x3000, 0x3100)] 0).warnings
      = [(0x3000, 0x3100)] ∧
    (proc_loop { pattern := [1] } demo_mem [(0x1000, 0x2000), (0x3000, 0x3100)] 0).out =
      (snapshots demo_mem [(0x1000, 0x2000), (0x3000, 0x3100)] 0).flatMap
        (region_matches { pattern := [1] } fun a o => a + o) :=
  have h := proc_loop_skips_unreadable { pattern := [1] } demo_mem demo_contract (by decide)
    [(0x1000, 0x2000), (0x3000, 0x3100)] 0 demo_snapshots_long
  ⟨demo_contract, by decide, h.1, by decide, h.2.2.2.1.trans (by decide),
    h.2.2.2.2.2 (by decide)⟩

/-- C7: the read loop of a region is all-or-nothing.  For a region of size
`N = end - start` (64-bit) and every memory source honouring the contract of
`read`, the loop ends; it ends without `error` iff every read it issued returned
a positive count, and then exactly `N` bytes were stored; if it ends with
`error`, the last read issued is the first one that returned zero or a negative
value, fewer than `N` bytes were stored, and the loop of `bingrep_proc` records a
warning for the region and goes on with the next one without calling `scan` on
the buffer. -/
theorem snapshot_all_or_nothing {σ : Type} (m : MemSource σ) (hc : ReadContract m) (s : σ)
    (region : Nat × Nat) :
    ∃ run, snapshot m s region = some run ∧
      (run.error = false ↔ ∀ e ∈ run.log, 0 < e.2) ∧
      (run.error = false → run.filled.length = usub region.2 region.1) ∧
      (run.error = true → ∃ pre c r, run.log = pre ++ [(c, r)] ∧ r ≤ 0 ∧ 0 < c ∧
        (∀ e ∈ pre, 0 < e.2) ∧ run.filled.length < usub region.2 region.1) ∧
      (run.error = true → ∀ (opts : Opts) (rest : List (Nat × Nat)),
        (proc_loop opts m (region :: rest) s).out = (proc_loop opts m rest run.state).out ∧
        (proc_loop opts m (region :: rest) s).scanned =
          (proc_loop opts m rest run.state).scanned ∧
        (proc_loop opts m (region :: rest) s).warnings =
          region :: (proc_loop opts m rest run.state).warnings) := by
  obtain ⟨run, h1, h2, h3, h4⟩ := snapshot_spec m hc s region
  refine ⟨run, h1, h2, h3, ?_, ?_⟩
  · intro he
    obtain ⟨pre, c, r, hlog, hr, hcpos, hpre, hlen⟩ := h4 he
    exact ⟨pre, c, r, hlog, hr, hcpos, hpre, by omega⟩
  · intro he opts rest
    simp [proc_loop, h1, he]

set_option maxRecDepth 20000 in
theorem snapshot_all_or_nothing_witness :
    ReadContract demo_mem ∧
    (snapshot demo_mem 0 (0x3000, 0x3100)).map
        (fun r => (r.error, r.filled.length, r.remaining, r.log)) =
      some (true, 0x80, 0x80, [(0x100, 0x80), (0x80, 0)]) ∧
    ∃ run, snapshot demo_mem 0 (0x3000, 0x3100) = some run ∧
      (run.error = false ↔ ∀ e ∈ run.log, 0 < e.2) ∧
      (run.error = false → run.filled.length = usub 0x3100 0x3000) :=
  have h := snapshot_all_or_nothing demo_mem demo_contract 0 (0x3000, 0x3100)
  ⟨demo_contract, by decide, h.elim fun run hr => ⟨run, hr.1, hr.2.1, hr.2.2.1⟩⟩

/-! ## Output format -/

theorem lower_hex_val_hex_digit (d : Nat) (hd : d < 16) :
    lower_hex_val (hex_digit d) = some d ∧ hex_digit d ∈ hex_chars := by
  interval_cases d <;> exact ⟨by decide, by decide⟩

theorem hex_digits_acc : ∀ (fuel n : Nat) (acc : List Char),
    hex_digits fuel n acc = hex_digits fuel n [] ++ acc
  | 0, _, acc => by simp [hex_digits]
  | fuel + 1, n, acc => by
    by_cases h : n / 16 = 0
    · simp [hex_digits, h]
    · simp only [hex_digits, h, if_false]
      rw [hex_digits_acc fuel (n / 16) (hex_digit (n % 16) :: acc),
        hex_digits_acc fuel (n / 16) [hex_digit (n % 16)]]
      simp

theorem parse_lower_hex_snoc (ds : List Char) (c : Char) :
    parse_lower_hex (ds ++ [c]) =
      (parse_lower_hex ds).bind fun a => (lower_hex_val c).map fun d => 16 * a + d := by
  simp [parse_lower_hex, List.foldl_append]

theorem parse_lower_hex_zeros (k : Nat) (ds : List Char) :
    parse_lower_hex (List.replicate k '0' ++ ds) = parse_lower_hex ds := by
  have hz : ∀ k : Nat, (List.replicate k '0').foldl
      (fun acc c => acc.bind fun a => (lower_hex_val c).map fun d => 16 * a + d) (some 0)
      = some 0 := by
    intro k
    induction k with
    | zero => rfl
    | succ k ih =>
      rw [List.replicate_succ, List.foldl_cons]
      have h0 : ((some 0 : Option Nat).bind fun a =>
          (lower_hex_val '0').map fun d => 16 * a + d) = some 0 := by decide
      rw [h0, ih]
  simp only [parse_lower_hex, List.foldl_append, hz]

/-- The digits of a value below `16 ^ fuel`: at most `fuel` of them, at least
one, all lowercase hexadecimal, and they read back as the value. -/
theorem hex_digits_spec : ∀ (fuel n : Nat), n < 16 ^ (fuel + 1) →
    (hex_digits (fuel + 1) n []).length ≤ fuel + 1 ∧
    (∀ c ∈ hex_digits (fuel + 1) n [], c ∈ hex_chars) ∧
    parse_lower_hex (hex_digits (fuel + 1) n []) = some n
  | 0, n, hn => by
    have hn16 : n < 16 := by simpa using hn
    have hq : n / 16 = 0 := Nat.div_eq_of_lt hn16
    have hm : n % 16 = n := Nat.mod_eq_of_lt hn16
    obtain ⟨hv, hc⟩ := lower_hex_val_hex_digit n hn16
    simp only [hex_digits, hq, if_true, hm]
    refine ⟨by simp, by simpa using hc, ?_⟩
    have := parse_lower_hex_snoc [] (hex_digit n)
    simp only [List.nil_append] at this
    rw [this, hv]
    simp [parse_lower_hex]
  | fuel + 1, n, hn => by
    have hmod : n % 16 < 16 := Nat.mod_lt _ (by decide)
    obtain ⟨hv, hc⟩ := lower_hex_val_hex_digit (n % 16) hmod
    by_cases hq : n / 16 = 0
    · have hn16 : n < 16 := by omega
      have hm : n % 16 = n := Nat.mod_eq_of_lt hn16
      simp only [hex_digits, hq, if_true]
      refine ⟨by simp, by simpa using hc, ?_⟩
      have := parse_lower_hex_snoc [] (hex_digit (n % 16))
      simp only [List.nil_append] at this
      rw [this, hv, hm]
      simp [parse_lower_hex]
    · have hlt : n / 16 < 16 ^ (fuel + 1) := by
        rw [Nat.div_lt_iff_lt_mul (by decide)]
        rw [pow_succ] at hn
        exact hn
      obtain ⟨i1, i2, i3⟩ := hex_digits_spec fuel (n / 16) hlt
      have hunf : hex_digits (fuel + 1 + 1) n [] =
          hex_digits (fuel + 1) (n / 16) [] ++ [hex_digit (n % 16)] := by
        rw [hex_digits]
        simp only [hq, if_false]
        exact hex_digits_acc _ _ _
      rw [hunf]
      refine ⟨by simp only [List.length_append, List.length_singleton]; omega, ?_, ?_⟩
      · intro c hcm
        rcases List.mem_append.mp hcm with h | h
        · exact i2 c h
        · rw [List.mem_singleton.mp h]; exact hc
      · rw [parse_lower_hex_snoc, i3, hv]
        simp only [Option.some_bind, Option.map_some', Option.some.injEq]
        omega

/-- C9: rendering of a match.  For every 64-bit value `x` the line printed
consists of exactly 16 characters drawn from `0-9a-f`, namely the hexadecimal
numeral of `x` padded on the left with `'0'`, followed by a newline; reading
the 16 digits back as hexadecimal gives `x`. -/
theorem render_match_format (x : Nat) (hx : x < WORD) :
    ∃ cs, render_match x = cs ++ ['\n'] ∧ cs.length = 16 ∧
      (∀ c ∈ cs, c ∈ hex_chars) ∧
      (∃ k, cs = List.replicate k '0' ++ hex_repr x) ∧
      parse_lower_hex cs = some x := by
  have hx16 : x < 16 ^ (15 + 1) := by
    have : WORD = 16 ^ (15 + 1) := by decide
    omega
  obtain ⟨h1, h2, h3⟩ := hex_digits_spec 15 x hx16
  have hrepr : hex_repr x = hex_digits (15 + 1) x [] := by
    simp only [hex_repr, Nat.mod_eq_of_lt hx]
  rw [← hrepr] at h1 h2 h3
  refine ⟨pad_left 16 '0' (hex_repr x), rfl, ?_, ?_, ⟨_, rfl⟩, ?_⟩
  · simp only [pad_left, List.length_append, List.length_replicate]
    omega
  · intro c hc
    simp only [pad_left] at hc
    rcases List.mem_append.mp hc with h | h
    · rw [(List.mem_replicate.mp h).2]
      decide
    · exact h2 c h
  · simp only [pad_left]
    rw [parse_lower_hex_zeros, h3]

theorem render_match_format_witness :
    0x1a2b < WORD ∧
    render_match 0x1a2b =
      ['0', '0', '0', '0', '0', '0', '0', '0', '0', '0', '0', '0', '1', 'a', '2', 'b', '\n'] ∧
    ∃ cs, render_match 0x1a2b = cs ++ ['\n'] ∧ cs.length = 16 ∧
      parse_lower_hex cs = some 0x1a2b :=
  have h := render_match_format 0x1a2b (by decide)
  ⟨by decide, by decide, h.elim fun cs hc => ⟨cs, hc.1, hc.2.1, hc.2.2.2.2⟩⟩

/-! ## The mapping table -/

/-- C10 as stated fails: a listing with a well-formed line followed by an empty
line, a line of non-hexadecimal text and a line with a single address is read
without any error, and every one of the malformed lines yields a region (built
from the indeterminate initial values, here 7 and 9, or from zero). -/
theorem parse_maps_keeps_malformed_lines :
    parse_maps
      (some ['1', '0', '0', '0', '-', '2', '0', '0', '0', ' ', 'r', '-', 'x', 'p', '\n',
        '\n', 'z', 'z', '\n', '1', '0', '0', '0', '\n'])
      (fun _ => (7, 9)) =
    Except.ok [(0x1000, 0x2000), (7, 9), (0, 9), (0x1000, 9)] := by
  rfl

theorem parse_lines_length (uninit : Nat → Nat × Nat) :
    ∀ (lines : List (List Char)) (k : Nat), (parse_lines uninit lines k).length = lines.length
  | [], _ => rfl
  | _ :: rest, k => by
    simp [parse_lines, parse_lines_length uninit rest (k + 1)]

/-- C10 amended: `parse_maps` has no malformed-mapping error.  For every listing
that can be opened, whatever its lines contain, it returns a list with exactly
one region per line; the only failure is a listing that cannot be opened. -/
theorem parse_maps_one_region_per_line (text : List Char) (uninit : Nat → Nat × Nat) :
    (∃ regions, parse_maps (some text) uninit = Except.ok regions ∧
      regions.length = (getlines text []).length) ∧
    parse_maps none uninit = Except.error Fatal.maps_open_failed :=
  ⟨⟨_, rfl, parse_lines_length uninit _ 0⟩, rfl⟩

/-! ## Command line: validation -/

theorem loop_invariant_default : LoopInvariant {} := by
  unfold LoopInvariant
  decide

theorem handle_option_invariant (o o1 : Opts) (c : Char) (optarg : List Char)
    (h : handle_option o c optarg = Except.ok o1) (hi : LoopInvariant o) :
    LoopInvariant o1 := by
  obtain ⟨h1, h2, h3, h4⟩ := hi
  unfold handle_option at h
  split_ifs at h with c1 c2 c3 c4 c5 c6 c7 c8 c9 c10 c11
  all_goals first
    | (cases h; done)
    | (cases h; refine ⟨h1, ?_, ?_, ?_⟩ <;> dsimp only <;> omega)

theorem getopt_loop_invariant : ∀ (args : List (Char × List Char)) (o o1 : Opts),
    getopt_loop args o = Except.ok o1 → LoopInvariant o → LoopInvariant o1
  | [], o, o1, h, hi => by
    simp only [getopt_loop, Except.ok.injEq] at h
    rw [← h]
    exact hi
  | (c, optarg) :: rest, o, o1, h, hi => by
    rw [getopt_loop] at h
    cases hh : handle_option o c optarg with
    | error r => rw [hh] at h; cases h
    | ok o2 =>
      rw [hh] at h
      exact getopt_loop_invariant rest o2 o1 h (handle_option_invariant o o2 c optarg hh hi)

theorem parse_opts_accepted (args : List (Char × List Char)) (o : Opts)
    (h : parse_opts args = ParseResult.accepted o) :
    ∃ o1, getopt_loop args {} = Except.ok o1 ∧ validate o1 = ParseResult.accepted o := by
  unfold parse_opts at h
  cases hh : getopt_loop args {} with
  | error r =>
    rw [hh] at h
    simp only at h
    subst h
    exact absurd hh (by
      intro hc
      have : ∀ (args : List (Char × List Char)) (o0 o2 : Opts),
          getopt_loop args o0 ≠ Except.error (ParseResult.accepted o2) := by
        intro args
        induction args with
        | nil => intro o0 o2 h0; simp [getopt_loop] at h0
        | cons a rest ih =>
          intro o0 o2 h0
          obtain ⟨c, optarg⟩ := a
          rw [getopt_loop] at h0
          cases h1 : handle_option o0 c optarg with
          | error r =>
            rw [h1] at h0
            simp only [Except.error.injEq] at h0
            subst h0
            unfold handle_option at h1
            split_ifs at h1 <;> cases h1
          | ok o3 =>
            rw [h1] at h0
            exact ih o3 o2 h0
      exact this args {} o hc)
  | ok o1 =>
    rw [hh] at h
    exact ⟨o1, rfl, h⟩

theorem target_check_iff (o : Opts) :
    target_check o = true ↔
      ((o.filename ≠ [] ∧ o.pid ≠ 0) ∨ (o.filename = [] ∧ o.pid = 0)) := by
  by_cases hf : o.filename = [] <;> by_cases hp : o.pid = 0 <;>
    simp [target_check, bool_to_int, hf, hp]

theorem pattern_check_iff (o : Opts) :
    pattern_check o = true ↔
      (((o.«from» ≠ 0 ∨ o.«to» ≠ 0) ∧ o.pattern ≠ []) ∨
        (o.«from» = 0 ∧ o.«to» = 0 ∧ o.pattern = [])) := by
  by_cases h1 : o.«from» = 0 <;> by_cases h2 : o.«to» = 0 <;> by_cases h3 : o.pattern = [] <;>
    simp [pattern_check, bool_to_int, h1, h2, h3]

theorem shl_one_32 : shl_one (8 * 4) = some (2 ^ 32) := by decide

/-- What an accepted configuration has passed. -/
theorem validate_accepted (o o1 : Opts) (h : validate o = ParseResult.accepted o1) :
    o1 = o ∧ target_check o = false ∧ (o.filename ≠ [] → o.indirections = 0) ∧
    pattern_check o = false ∧ ((o.«from» ≠ 0 ∨ o.«to» ≠ 0) → o.«from» ≤ o.«to») ∧
    (o.pointer_size < 8 → ∃ limit, shl_one (8 * o.pointer_size) = some limit ∧
      o.«to» < limit) := by
  unfold validate at h
  split_ifs at h with c1 c2 c3 c4 c5
  · have hfile : o.filename ≠ [] → o.indirections = 0 := by
      intro hf
      by_contra hne
      exact c2 ⟨hf, hne⟩
    have hord : (o.«from» ≠ 0 ∨ o.«to» ≠ 0) → o.«from» ≤ o.«to» := by
      intro hr
      by_contra hgt
      exact c4 ⟨hr, by omega⟩
    split at h
    · cases h
    · rename_i limit hlim
      split_ifs at h with c6
      cases h
      exact ⟨rfl, by simpa using c1, hfile, by simpa using c3, hord,
        fun _ => ⟨limit, hlim, by omega⟩⟩
  · have hfile : o.filename ≠ [] → o.indirections = 0 := by
      intro hf
      by_contra hne
      exact c2 ⟨hf, hne⟩
    have hord : (o.«from» ≠ 0 ∨ o.«to» ≠ 0) → o.«from» ≤ o.«to» := by
      intro hr
      by_contra hgt
      exact c4 ⟨hr, by omega⟩
    cases h
    exact ⟨rfl, by simpa using c1, hfile, by simpa using c3, hord,
      fun h8 => absurd h8 c5⟩

/-- The checks that come before the shift always end in `usage_fail`. -/
theorem validate_early_reject (o : Opts)
    (h : target_check o = true ∨ (o.filename ≠ [] ∧ o.indirections ≠ 0) ∨
      pattern_check o = true ∨ ((o.«from» ≠ 0 ∨ o.«to» ≠ 0) ∧ o.«from» > o.«to»)) :
    ∃ why, validate o = ParseResult.usage_fail why := by
  unfold validate
  split_ifs with c1 c2 c3 c4 c5
  · exact ⟨_, rfl⟩
  · exact ⟨_, rfl⟩
  · exact ⟨_, rfl⟩
  · exact ⟨_, rfl⟩
  · rcases h with h | h | h | h
    · exact absurd h c1
    · exact absurd h c2
    · exact absurd h c3
    · exact absurd h c4
  · rcases h with h | h | h | h
    · exact absurd h c1
    · exact absurd h c2
    · exact absurd h c3
    · exact absurd h c4

/-- With a 4-byte pointer an upper bound of `2^32` or more is rejected. -/
theorem validate_width4_reject (o : Opts) (h4 : o.pointer_size = 4)
    (hto : 2 ^ 32 ≤ o.«to») : ∃ why, validate o = ParseResult.usage_fail why := by
  unfold validate
  split_ifs with c1 c2 c3 c4 c5
  · exact ⟨_, rfl⟩
  · exact ⟨_, rfl⟩
  · exact ⟨_, rfl⟩
  · exact ⟨_, rfl⟩
  · rw [h4, shl_one_32]
    simp only
    rw [if_pos (show o.«to» ≥ 2 ^ 32 from hto)]
    exact ⟨_, rfl⟩
  · rw [h4] at c5
    exact absurd (by decide) c5

theorem validate_target (o : Opts) :
    validate o = ParseResult.usage_fail Reason.target ↔ target_check o = true := by
  constructor
  · intro h
    by_contra hc
    unfold validate at h
    rw [if_neg hc] at h
    split_ifs at h
    all_goals first
      | (cases h)
      | (split at h
         · cases h
         · split_ifs at h
           cases h)
  · intro h
    unfold validate
    rw [if_pos h]

theorem parse_opts_of_loop (args : List (Char × List Char)) (o : Opts)
    (hloop : getopt_loop args {} = Except.ok o) : parse_opts args = validate o := by
  unfold parse_opts
  rw [hloop]

/-- C11: target selection.  After the option loop, `parse_opts` fails with the
message about `-f` and `-p` (usage on standard error, exit status 1) if and only
if it is not the case that exactly one of "filename is non-empty" and "pid is
non-zero" holds: both given or neither given is rejected, exactly one passes
the check.  The C++ condition `a ^ b == 0`, read as `a ^ (b == 0)`, computes
this. -/
theorem target_selection (args : List (Char × List Char)) (o : Opts)
    (hloop : getopt_loop args {} = Except.ok o) :
    (parse_opts args = ParseResult.usage_fail Reason.target ↔
      ¬ ((o.filename ≠ [] ∧ o.pid = 0) ∨ (o.filename = [] ∧ o.pid ≠ 0))) ∧
    (∀ o1 : Opts, validate o1 = ParseResult.usage_fail Reason.target ↔
      ((o1.filename ≠ [] ∧ o1.pid ≠ 0) ∨ (o1.filename = [] ∧ o1.pid = 0))) ∧
    (∀ o1 : Opts, target_check o1 = false ↔
      ((o1.filename ≠ [] ∧ o1.pid = 0) ∨ (o1.filename = [] ∧ o1.pid ≠ 0))) ∧
    exit_status (ParseResult.usage_fail Reason.target) = some 1 := by
  have hval : ∀ o1 : Opts, validate o1 = ParseResult.usage_fail Reason.target ↔
      ((o1.filename ≠ [] ∧ o1.pid ≠ 0) ∨ (o1.filename = [] ∧ o1.pid = 0)) := by
    intro o1
    rw [validate_target, target_check_iff]
  refine ⟨?_, hval, ?_, rfl⟩
  · rw [parse_opts_of_loop args o hloop, hval o]
    by_cases hf : o.filename = [] <;> by_cases hp : o.pid = 0 <;> simp [hf, hp]
  · intro o1
    have h := target_check_iff o1
    by_cases hf : o1.filename = [] <;> by_cases hp : o1.pid = 0 <;> simp_all

theorem target_selection_witness :
    getopt_loop [('f', ['x']), ('p', ['1', '2']), ('e', ['2'])] {} =
      Except.ok { filename := ['x'], pid := 12, «to» := 2 } ∧
    parse_opts [('f', ['x']), ('p', ['1', '2']), ('e', ['2'])] =
      ParseResult.usage_fail Reason.target ∧
    parse_opts [('e', ['2'])] = ParseResult.usage_fail Reason.target ∧
    parse_opts [('p', ['1', '2']), ('e', ['2'])] =
      ParseResult.accepted { pid := 12, «to» := 2 } :=
  have h := target_selection [('f', ['x']), ('p', ['1', '2']), ('e', ['2'])]
    { filename := ['x'], pid := 12, «to» := 2 } rfl
  ⟨rfl, h.1.mpr (by decide), by decide, by decide⟩

/-- C12: pattern selection.  Every configuration `parse_opts` accepts has exactly
one pattern variant set, a non-empty literal or a range (`from` or `to`
non-zero), never both and never neither; a configuration with both or with
neither ends in `usage_fail`. -/
theorem pattern_selection (args : List (Char × List Char)) (o : Opts)
    (h : parse_opts args = ParseResult.accepted o) :
    ((o.pattern ≠ [] ∧ o.«from» = 0 ∧ o.«to» = 0) ∨
      (o.pattern = [] ∧ (o.«from» ≠ 0 ∨ o.«to» ≠ 0))) ∧
    (∀ o1 o2 : Opts, validate o1 = ParseResult.accepted o2 →
      ((o1.pattern ≠ [] ∧ o1.«from» = 0 ∧ o1.«to» = 0) ∨
        (o1.pattern = [] ∧ (o1.«from» ≠ 0 ∨ o1.«to» ≠ 0)))) ∧
    (∀ o1 : Opts, (o1.pattern ≠ [] ∧ (o1.«from» ≠ 0 ∨ o1.«to» ≠ 0)) ∨
        (o1.pattern = [] ∧ o1.«from» = 0 ∧ o1.«to» = 0) →
      ∃ why, validate o1 = ParseResult.usage_fail why) := by
  have hval : ∀ o1 o2 : Opts, validate o1 = ParseResult.accepted o2 →
      ((o1.pattern ≠ [] ∧ o1.«from» = 0 ∧ o1.«to» = 0) ∨
        (o1.pattern = [] ∧ (o1.«from» ≠ 0 ∨ o1.«to» ≠ 0))) := by
    intro o1 o2 hv
    obtain ⟨_, _, _, hpc, _, _⟩ := validate_accepted o1 o2 hv
    have hiff := pattern_check_iff o1
    rw [hpc] at hiff
    by_cases h1 : o1.«from» = 0 <;> by_cases h2 : o1.«to» = 0 <;>
      by_cases h3 : o1.pattern = [] <;> simp_all
  refine ⟨?_, hval, ?_⟩
  · obtain ⟨o1, _, hv⟩ := parse_opts_accepted args o h
    obtain ⟨ho, _⟩ := validate_accepted o1 o hv
    rw [ho]
    exact hval o1 o hv
  · intro o1 hbad
    apply validate_early_reject
    right; right; left
    rw [pattern_check_iff]
    rcases hbad with ⟨h1, h2⟩ | ⟨h1, h2, h3⟩
    · exact Or.inl ⟨h2, h1⟩
    · exact Or.inr ⟨h2, h3, h1⟩

theorem pattern_selection_witness :
    parse_opts [('p', ['1', '2']), ('s', ['1']), ('e', ['2'])] =
      ParseResult.accepted { pid := 12, «from» := 1, «to» := 2 } ∧
    (({ pid := 12, «from» := 1, «to» := 2 } : Opts).pattern = [] ∧
      (({ pid := 12, «from» := 1, «to» := 2 } : Opts).«from» ≠ 0 ∨
        ({ pid := 12, «from» := 1, «to» := 2 } : Opts).«to» ≠ 0)) ∧
    parse_opts [('p', ['1', '2'])] = ParseResult.usage_fail Reason.pattern :=
  have h := pattern_selection [('p', ['1', '2']), ('s', ['1']), ('e', ['2'])]
    { pid := 12, «from» := 1, «to» := 2 } (by decide)
  ⟨by decide, h.1.resolve_left (by decide), by decide⟩

/-- C13: range well-formedness.  Every configuration accepted by `parse_opts`
satisfies `from ≤ to`, and `to < 2^32` when the pointer size is 4; a
configuration that selects a range with `from > to`, or has pointer size 4
with `to ≥ 2^32`, ends in `usage_fail`. -/
theorem range_well_formed (args : List (Char × List Char)) (o : Opts)
    (h : parse_opts args = ParseResult.accepted o) :
    (o.«from» ≤ o.«to» ∧ (o.pointer_size = 4 → o.«to» < 2 ^ 32)) ∧
    (∀ o1 o2 : Opts, validate o1 = ParseResult.accepted o2 →
      o1.«from» ≤ o1.«to» ∧ (o1.pointer_size = 4 → o1.«to» < 2 ^ 32)) ∧
    (∀ o1 : Opts, (o1.«from» ≠ 0 ∨ o1.«to» ≠ 0) → o1.«from» > o1.«to» →
      ∃ why, validate o1 = ParseResult.usage_fail why) ∧
    (∀ o1 : Opts, o1.pointer_size = 4 → 2 ^ 32 ≤ o1.«to» →
      ∃ why, validate o1 = ParseResult.usage_fail why) := by
  have hval : ∀ o1 o2 : Opts, validate o1 = ParseResult.accepted o2 →
      o1.«from» ≤ o1.«to» ∧ (o1.pointer_size = 4 → o1.«to» < 2 ^ 32) := by
    intro o1 o2 hv
    obtain ⟨_, _, _, _, hord, hlim⟩ := validate_accepted o1 o2 hv
    constructor
    · by_cases hr : o1.«from» ≠ 0 ∨ o1.«to» ≠ 0
      · exact hord hr
      · have : o1.«from» = 0 := by
          by_contra hc
          exact hr (Or.inl hc)
        omega
    · intro h4
      obtain ⟨limit, hl, hlt⟩ := hlim (by omega)
      rw [h4, shl_one_32] at hl
      cases hl
      exact hlt
  refine ⟨?_, hval, ?_, ?_⟩
  · obtain ⟨o1, _, hv⟩ := parse_opts_accepted args o h
    obtain ⟨ho, _⟩ := validate_accepted o1 o hv
    rw [ho]
    exact hval o1 o hv
  · intro o1 hr hgt
    exact validate_early_reject o1 (Or.inr (Or.inr (Or.inr ⟨hr, hgt⟩)))
  · intro o1 h4 hto
    exact validate_width4_reject o1 h4 hto

theorem range_well_formed_witness :
    parse_opts [('p', ['1', '2']), ('e', ['f', 'f', 'f', 'f', 'f', 'f', 'f', 'f']),
        ('w', ['4'])] =
      ParseResult.accepted { pid := 12, «to» := 0xffffffff, pointer_size := 4 } ∧
    ({ pid := 12, «to» := 0xffffffff, pointer_size := 4 } : Opts).«to» < 2 ^ 32 ∧
    parse_opts [('p', ['1', '2']), ('e', ['1', '0', '0', '0', '0', '0', '0', '0', '0']),
        ('w', ['4'])] = ParseResult.usage_fail Reason.to_too_large ∧
    parse_opts [('p', ['1', '2']), ('s', ['5']), ('e', ['4'])] =
      ParseResult.usage_fail Reason.from_gt_to :=
  have h := range_well_formed
    [('p', ['1', '2']), ('e', ['f', 'f', 'f', 'f', 'f', 'f', 'f', 'f']), ('w', ['4'])]
    { pid := 12, «to» := 0xffffffff, pointer_size := 4 } (by decide)
  ⟨by decide, h.1.2 rfl, by decide, by decide⟩

/-- C14 as stated fails: the command line `-f x -i 0 -s 1 -e 2` targets a file and
supplies the indirections option, and `parse_opts` accepts it. -/
theorem indirections_zero_with_file_accepted :
    parse_opts [('f', ['x']), ('i', ['0']), ('s', ['1']), ('e', ['2'])] =
      ParseResult.accepted { filename := ['x'], «from» := 1, «to» := 2 } := by
  decide

/-- C14 amended: every configuration accepted by `parse_opts` has
`0 ≤ indirections ≤ 10`, and has `indirections = 0` when it targets a file; a
configuration that targets a file with a non-zero number of indirections ends
in `usage_fail`, and an argument of `-i` outside `0 … 10` is rejected on the
spot. -/
theorem indirections_option (args : List (Char × List Char)) (o : Opts)
    (h : parse_opts args = ParseResult.accepted o) :
    (0 ≤ o.indirections ∧ o.indirections ≤ 10) ∧
    (o.filename ≠ [] → o.indirections = 0) ∧
    (∀ o1 : Opts, o1.filename ≠ [] → o1.indirections ≠ 0 →
      ∃ why, validate o1 = ParseResult.usage_fail why) ∧
    (∀ (o1 : Opts) (optarg : List Char), atoi optarg < 0 ∨ atoi optarg > 10 →
      handle_option o1 'i' optarg = Except.error (ParseResult.usage_fail Reason.invalid_i)) := by
  obtain ⟨o1, hloop, hv⟩ := parse_opts_accepted args o h
  obtain ⟨ho, _, hfile, _⟩ := validate_accepted o1 o hv
  obtain ⟨_, _, h3, h4⟩ := getopt_loop_invariant args {} o1 hloop loop_invariant_default
  rw [ho]
  refine ⟨⟨h3, h4⟩, hfile, ?_, ?_⟩
  · intro o2 hf hi
    exact validate_early_reject o2 (Or.inr (Or.inl ⟨hf, hi⟩))
  · intro o2 optarg hbad
    unfold handle_option
    rw [if_neg (by decide), if_neg (by decide), if_neg (by decide), if_pos rfl, if_pos hbad]

theorem indirections_option_witness :
    parse_opts [('p', ['1', '2']), ('i', ['3']), ('s', ['1']), ('e', ['2'])] =
      ParseResult.accepted { pid := 12, indirections := 3, «from» := 1, «to» := 2 } ∧
    (0 ≤ ({ pid := 12, indirections := 3, «from» := 1, «to» := 2 } : Opts).indirections ∧
      ({ pid := 12, indirections := 3, «from» := 1, «to» := 2 } : Opts).indirections ≤ 10) ∧
    parse_opts [('f', ['x']), ('i', ['3']), ('s', ['1']), ('e', ['2'])] =
      ParseResult.usage_fail Reason.indirections_with_file ∧
    parse_opts [('p', ['1', '2']), ('i', ['1', '1']), ('s', ['1']), ('e', ['2'])] =
      ParseResult.usage_fail Reason.invalid_i :=
  have h := indirections_option [('p', ['1', '2']), ('i', ['3']), ('s', ['1']), ('e', ['2'])]
    { pid := 12, indirections := 3, «from» := 1, «to» := 2 } (by decide)
  ⟨by decide, h.1, by decide, by decide⟩

theorem scan_loop_not_aborted (test : Nat → Option Bool) (bound : Nat) :
    ∀ fuel i, (scan_loop test bound fuel i).status ≠ Status.aborted
  | 0, _ => by simp [scan_loop]
  | fuel + 1, i => by
    have ih := scan_loop_not_aborted test bound fuel ((i + 1) % WORD)
    rw [scan_loop]
    split_ifs with hi
    · cases test i with
      | none => simp
      | some b => exact ih
    · simp

/-- C16: the `abort()` branch of `scan` is unreachable after validation.  Every
configuration `parse_opts` returns with has `pointer_size` 4 or 8 (8 when `-w` is
absent, any other argument of `-w` is rejected), so on every buffer `scan` runs
the literal, the 4-byte or the 8-byte loop and never calls `abort()`. -/
theorem abort_unreachable (args : List (Char × List Char)) (o : Opts)
    (h : parse_opts args = ParseResult.accepted o) :
    (o.pointer_size = 4 ∨ o.pointer_size = 8) ∧
    (∀ B : List Byte, (scan o B).status ≠ Status.aborted) ∧
    (∀ B : List Byte,
      scan o B = scan_loop (test_literal o B) (usub B.length o.pattern.length)
          (B.length + 2) 0 ∨
      scan o B = scan_loop (test_range o 4 B) (usub B.length 4) (B.length + 2) 0 ∨
      scan o B = scan_loop (test_range o 8 B) (usub B.length 8) (B.length + 2) 0) ∧
    ({} : Opts).pointer_size = 8 ∧
    (∀ (o1 : Opts) (optarg : List Char), atoi optarg ≠ 4 → atoi optarg ≠ 8 →
      handle_option o1 'w' optarg = Except.error (ParseResult.usage_fail Reason.invalid_w)) := by
  obtain ⟨o1, hloop, hv⟩ := parse_opts_accepted args o h
  obtain ⟨ho, _⟩ := validate_accepted o1 o hv
  obtain ⟨_, h2, _, _⟩ := getopt_loop_invariant args {} o1 hloop loop_invariant_default
  rw [ho]
  have hbranch : ∀ B : List Byte,
      scan o1 B = scan_loop (test_literal o1 B) (usub B.length o1.pattern.length)
          (B.length + 2) 0 ∨
      scan o1 B = scan_loop (test_range o1 4 B) (usub B.length 4) (B.length + 2) 0 ∨
      scan o1 B = scan_loop (test_range o1 8 B) (usub B.length 8) (B.length + 2) 0 := by
    intro B
    unfold scan
    by_cases hP : o1.pattern ≠ []
    · left
      simp only [if_pos hP]
    · rcases h2 with h4 | h8
      · right; left
        simp only [if_neg hP, h4, if_true]
      · right; right
        have h84 : ¬ ((8 : Int) = 4) := by decide
        simp only [if_neg hP, h8, h84, if_false, if_true]
  refine ⟨h2, ?_, hbranch, rfl, ?_⟩
  · intro B
    rcases hbranch B with hb | hb | hb <;> rw [hb] <;> exact scan_loop_not_aborted _ _ _ _
  · intro o2 optarg h4 h8
    unfold handle_option
    rw [if_neg (by decide), if_neg (by decide), if_neg (by decide), if_neg (by decide),
      if_neg (by decide), if_neg (by decide), if_pos rfl, if_pos ⟨h4, h8⟩]

theorem abort_unreachable_witness :
    parse_opts [('p', ['1', '2']), ('e', ['f', 'f']), ('w', ['4'])] =
      ParseResult.accepted { pid := 12, «to» := 0xff, pointer_size := 4 } ∧
    (scan { pid := 12, «to» := 0xff, pointer_size := 4 } [1, 0, 0, 0, 0, 7]).status
      ≠ Status.aborted ∧
    (scan { pid := 12, «to» := 0xff, pointer_size := 4 } [1, 0, 0, 0, 0, 7]).hits = [0, 1] ∧
    parse_opts [('p', ['1', '2']), ('e', ['f', 'f']), ('w', ['5'])] =
      ParseResult.usage_fail Reason.invalid_w ∧
    (scan { «to» := 0xff, pointer_size := 5 } [1, 0, 0, 0, 0, 7]).status = Status.aborted :=
  have h := abort_unreachable [('p', ['1', '2']), ('e', ['f', 'f']), ('w', ['4'])]
    { pid := 12, «to» := 0xff, pointer_size := 4 } (by decide)
  ⟨by decide, h.2.1 [1, 0, 0, 0, 0, 7], by decide, by decide, by decide⟩

/-- C17: the literal takes precedence inside `scan`.  Two configurations with the
same non-empty literal pattern, whatever their `from`, `to`, `pointer_size`,
`indirections` (and other fields), give the same run of `scan` on every buffer,
and that run is the literal loop: the range loops are not entered. -/
theorem literal_precedence (o1 o2 : Opts) (B : List Byte)
    (hp : o1.pattern = o2.pattern) (hne : o1.pattern ≠ []) :
    scan o1 B = scan o2 B ∧
    (scan o1 B).hits = (scan o2 B).hits ∧
    scan o1 B = scan_loop (test_literal o1 B) (usub B.length o1.pattern.length)
      (B.length + 2) 0 := by
  have hne2 : o2.pattern ≠ [] := hp ▸ hne
  have htest : test_literal o1 B = test_literal o2 B := by
    funext i
    simp only [test_literal, hp]
  have h1 : scan o1 B = scan_loop (test_literal o1 B) (usub B.length o1.pattern.length)
      (B.length + 2) 0 := by
    simp only [scan, if_pos hne]
  have h2 : scan o2 B = scan_loop (test_literal o2 B) (usub B.length o2.pattern.length)
      (B.length + 2) 0 := by
    simp only [scan, if_pos hne2]
  have heq : scan o1 B = scan o2 B := by rw [h1, h2, htest, hp]
  exact ⟨heq, by rw [heq], h1⟩

theorem literal_precedence_witness :
    ({ pattern := [1], «from» := 0, «to» := 0xffff, pointer_size := 4, indirections := 3 }
      : Opts).pattern = ({ pattern := [1] } : Opts).pattern ∧
    (scan { pattern := [1], «from» := 0, «to» := 0xffff, pointer_size := 4, indirections := 3 }
      [0, 1, 2, 1, 0]).hits = [1, 3] ∧
    (scan { pattern := [1], «from» := 0, «to» := 0xffff, pointer_size := 4, indirections := 3 }
      [0, 1, 2, 1, 0]) = scan { pattern := [1] } [0, 1, 2, 1, 0] ∧
    (scan { «from» := 0, «to» := 0xffff, pointer_size := 4 } [0, 1, 2, 1, 0]).hits = [] :=
  have h := literal_precedence
    { pattern := [1], «from» := 0, «to» := 0xffff, pointer_size := 4, indirections := 3 }
    { pattern := [1] } [0, 1, 2, 1, 0] rfl (by decide)
  ⟨rfl, by decide, h.1, by decide⟩

/-- A configuration that passes the checks on target, indirections, pattern and
bounds, with pointer size 8, or 4 and `to < 2^32`, is accepted. -/
theorem validate_accepts (o : Opts) (h1 : target_check o = false)
    (h2 : o.filename ≠ [] → o.indirections = 0) (h3 : pattern_check o = false)
    (h4 : o.«from» ≤ o.«to»)
    (h5 : o.pointer_size = 8 ∨ (o.pointer_size = 4 ∧ o.«to» < 2 ^ 32)) :
    validate o = ParseResult.accepted o := by
  unfold validate
  rw [if_neg (by simp [h1]), if_neg (fun hc => hc.2 (h2 hc.1)), if_neg (by simp [h3]),
    if_neg (fun hc => absurd h4 (by omega))]
  rcases h5 with h8 | ⟨h4', hlt⟩
  · rw [if_neg (by omega)]
  · rw [if_pos (by omega), h4', shl_one_32]
    simp only
    rw [if_neg (by omega)]

/-- C18: a range is recognised only through non-zero bounds.  `parse_opts` rejects
every configuration with an empty literal pattern in which `from = 0` and
`to = 0`, whether `-s 0` and `-e 0` were given or not, so the range `[0, 0]`
cannot be configured; a configuration in which only `to` is non-zero passes
the checks on the pattern and on the order of the bounds, is accepted when the
other checks pass, and is scanned as the range `[0, to]`. -/
theorem zero_bounds_not_a_range (args : List (Char × List Char)) (o : Opts)
    (hloop : getopt_loop args {} = Except.ok o) :
    (o.«from» = 0 → o.«to» = 0 → ∃ why, parse_opts args = ParseResult.usage_fail why) ∧
    (∀ o1 : Opts, o1.pattern = [] → o1.«from» = 0 → o1.«to» = 0 →
      ∃ why, validate o1 = ParseResult.usage_fail why) ∧
    (∀ o1 : Opts, o1.pattern = [] → o1.«from» = 0 → o1.«to» ≠ 0 →
      pattern_check o1 = false ∧ ¬ ((o1.«from» ≠ 0 ∨ o1.«to» ≠ 0) ∧ o1.«from» > o1.«to»)) ∧
    (∀ o1 : Opts, o1.pattern = [] → o1.«from» = 0 → o1.«to» ≠ 0 →
      ((o1.filename ≠ [] ∧ o1.pid = 0) ∨ (o1.filename = [] ∧ o1.pid ≠ 0)) →
      (o1.filename ≠ [] → o1.indirections = 0) →
      (o1.pointer_size = 8 ∨ (o1.pointer_size = 4 ∧ o1.«to» < 2 ^ 32)) →
      validate o1 = ParseResult.accepted o1) ∧
    (∀ (o1 : Opts) (B : List Byte) (w : Nat), o1.pattern = [] → o1.«from» = 0 →
      (w = 4 ∨ w = 8) → o1.pointer_size = (w : Int) → w ≤ B.length → B.length < WORD →
      ∀ x, x ∈ (scan o1 B).hits ↔ x + w ≤ B.length ∧ le_decode (slice B x w) ≤ o1.«to») := by
  have hpc : ∀ o1 : Opts, o1.pattern = [] → o1.«from» = 0 → o1.«to» ≠ 0 →
      pattern_check o1 = false := by
    intro o1 hp hf ht
    have hiff := pattern_check_iff o1
    by_contra hc
    have hc' : pattern_check o1 = true := by simpa using hc
    rcases hiff.mp hc' with ⟨_, hne⟩ | ⟨_, hz, _⟩
    · exact hne hp
    · exact ht hz
  have hrej : ∀ o1 : Opts, o1.pattern = [] → o1.«from» = 0 → o1.«to» = 0 →
      ∃ why, validate o1 = ParseResult.usage_fail why := by
    intro o1 hp hf ht
    apply validate_early_reject
    right; right; left
    rw [pattern_check_iff]
    exact Or.inr ⟨hf, ht, hp⟩
  refine ⟨?_, hrej, ?_, ?_, ?_⟩
  · intro hf ht
    obtain ⟨hp, _⟩ := getopt_loop_invariant args {} o hloop loop_invariant_default
    rw [parse_opts_of_loop args o hloop]
    exact hrej o hp hf ht
  · intro o1 hp hf ht
    exact ⟨hpc o1 hp hf ht, fun hc => by omega⟩
  · intro o1 hp hf ht htarget hind hps
    apply validate_accepts o1 _ hind (hpc o1 hp hf ht) (by omega) hps
    have hiff := target_check_iff o1
    by_contra hc
    have hc' : target_check o1 = true := by simpa using hc
    rcases hiff.mp hc' with ⟨a, b⟩ | ⟨a, b⟩ <;> rcases htarget with ⟨c, d⟩ | ⟨c, d⟩ <;>
      first | exact b d | exact c a | exact d b | exact a c
  · intro o1 B w hp hf hw hps hlen hsz x
    rw [scan_range_run o1 B w hp hw hps hlen hsz]
    simp only [List.mem_filter, List.mem_range, Bool.and_eq_true, decide_eq_true_eq, hf,
      Nat.zero_le, true_and]
    constructor
    · rintro ⟨h1, h2⟩
      exact ⟨by omega, h2⟩
    · rintro ⟨h1, h2⟩
      exact ⟨by omega, h2⟩

theorem zero_bounds_not_a_range_witness :
    getopt_loop [('p', ['1', '2']), ('s', ['0']), ('e', ['0'])] {} = Except.ok { pid := 12 } ∧
    parse_opts [('p', ['1', '2']), ('s', ['0']), ('e', ['0'])] =
      ParseResult.usage_fail Reason.pattern ∧
    (∃ why, parse_opts [('p', ['1', '2']), ('s', ['0']), ('e', ['0'])] =
      ParseResult.usage_fail why) ∧
    parse_opts [('p', ['1', '2'])] = ParseResult.usage_fail Reason.pattern ∧
    parse_opts [('p', ['1', '2']), ('e', ['1', '0'])] =
      ParseResult.accepted { pid := 12, «to» := 0x10 } ∧
    (scan { pid := 12, «to» := 0x10 } [0x10, 0, 0, 0, 0, 0, 0, 0, 0x11]).hits = [0] :=
  have h := zero_bounds_not_a_range [('p', ['1', '2']), ('s', ['0']), ('e', ['0'])]
    { pid := 12 } rfl
  ⟨rfl, by decide, h.1 rfl rfl, by decide, by decide, by decide⟩

/-! ## The mapping table: well-formed lines -/

theorem hex_not_special (c : Char) (h : (hex_val c).isSome = true) :
    c ≠ '-' ∧ c ≠ '+' ∧ c ≠ 'x' ∧ c ≠ 'X' ∧ is_space c = false := by
  refine ⟨?_, ?_, ?_, ?_, ?_⟩
  · rintro rfl; revert h; decide
  · rintro rfl; revert h; decide
  · rintro rfl; revert h; decide
  · rintro rfl; revert h; decide
  · by_contra hs
    have hs' : is_space c = true := by simpa using hs
    simp only [is_space, Bool.or_eq_true, decide_eq_true_eq] at hs'
    rcases hs' with ((((rfl | rfl) | rfl) | rfl) | rfl) | rfl <;> revert h <;> decide

theorem num_get_hex_zero (t : List Char) (ht : ∀ d ∈ t.head?, d ≠ 'x' ∧ d ≠ 'X') :
    num_get_hex ('0' :: t) =
      if (accumulate t 0 false 0).2.1 then (UMAX, true, (accumulate t 0 false 0).2.2.2)
      else ((accumulate t 0 false 0).1, false, (accumulate t 0 false 0).2.2.2) := by
  cases t with
  | nil => simp [num_get_hex]
  | cons d t1 =>
    obtain ⟨h1, h2⟩ := ht d (by simp)
    simp [num_get_hex, h1, h2]

theorem num_get_hex_plain (c : Char) (t : List Char) (h1 : c ≠ '-') (h2 : c ≠ '+')
    (h3 : c ≠ '0') :
    num_get_hex (c :: t) =
      if (accumulate (c :: t) 0 false 0).2.2.1 = 0 then
        (0, true, (accumulate (c :: t) 0 false 0).2.2.2)
      else if (accumulate (c :: t) 0 false 0).2.1 then
        (UMAX, true, (accumulate (c :: t) 0 false 0).2.2.2)
      else ((accumulate (c :: t) 0 false 0).1, false, (accumulate (c :: t) 0 false 0).2.2.2) := by
  simp [num_get_hex, h1, h2, h3]

theorem le_hex_value_from : ∀ (h : List Char) (a : Nat), a ≤ hex_value_from a h
  | [], a => by simp [hex_value_from]
  | c :: h, a => by
    have ih := le_hex_value_from h (16 * a + (hex_val c).getD 0)
    simp only [hex_value_from, List.foldl_cons] at ih ⊢
    omega

/-- The digit loop on a numeral that fits 64 bits, followed by something that
is no hexadecimal digit. -/
theorem accumulate_digits : ∀ (h rest : List Char) (r : Nat) (o : Bool) (n : Nat),
    (∀ c ∈ h, (hex_val c).isSome = true) → (∀ c ∈ rest.head?, hex_val c = none) →
    hex_value_from r h < WORD →
    accumulate (h ++ rest) r o n = (hex_value_from r h, o, n + h.length, rest)
  | [], rest, r, o, n, _, hrest, _ => by
    cases rest with
    | nil => simp [accumulate, hex_value_from]
    | cons c cs =>
      have hc : hex_val c = none := hrest c (by simp)
      simp [accumulate, hc, hex_value_from]
  | c :: h, rest, r, o, n, hhex, hrest, hfit => by
    obtain ⟨d, hd⟩ := Option.isSome_iff_exists.mp (hhex c (List.mem_cons_self _ _))
    have hstep : hex_value_from r (c :: h) = hex_value_from (16 * r + d) h := by
      simp [hex_value_from, hd]
    rw [hstep] at hfit ⊢
    have hle := le_hex_value_from h (16 * r + d)
    have hW : WORD = 18446744073709551616 := by decide
    have hU : UMAX = 18446744073709551615 := by decide
    have hsmall : ¬ r > UMAX / 16 := by
      rw [hU]
      omega
    have hmod : (r * 16 + d) % WORD = 16 * r + d := by
      rw [Nat.mod_eq_of_lt (by omega)]
      omega
    have hov : (o || decide (r * 16 > UMAX - d)) = o := by
      have : ¬ r * 16 > UMAX - d := by
        rw [hU]
        omega
      simp [this]
    have ih := accumulate_digits h rest (16 * r + d) o (n + 1)
      (fun c hc => hhex c (List.mem_cons_of_mem _ hc)) hrest hfit
    rw [List.cons_append, accumulate]
    simp only [hd, if_neg hsmall, hmod, hov, ih, List.length_cons]
    congr 3
    omega

/-- The integer parser on a hexadecimal numeral that fits 64 bits and is
followed by something that is neither a hexadecimal digit nor `x`. -/
theorem num_get_hex_numeral (h rest : List Char) (hne : h ≠ [])
    (hhex : ∀ c ∈ h, (hex_val c).isSome = true)
    (hrest : ∀ c ∈ rest.head?, hex_val c = none ∧ c ≠ 'x' ∧ c ≠ 'X')
    (hfit : hex_value h < WORD) :
    num_get_hex (h ++ rest) = (hex_value h, false, rest) := by
  cases h with
  | nil => exact absurd rfl hne
  | cons c h1 =>
    have hc := hhex c (List.mem_cons_self _ _)
    obtain ⟨n1, n2, _, _, _⟩ := hex_not_special c hc
    have hrest' : ∀ c ∈ rest.head?, hex_val c = none := fun c hc => (hrest c hc).1
    by_cases h0 : c = '0'
    · subst h0
      have hv : hex_value ('0' :: h1) = hex_value_from 0 h1 := by
        simp [hex_value, hex_value_from, show hex_val '0' = some 0 by decide]
      rw [hv] at hfit ⊢
      have hacc := accumulate_digits h1 rest 0 false 0
        (fun c hc => hhex c (List.mem_cons_of_mem _ hc)) hrest' hfit
      have hhead : ∀ d ∈ (h1 ++ rest).head?, d ≠ 'x' ∧ d ≠ 'X' := by
        intro d hd
        cases h1 with
        | nil => exact (hrest d (by simpa using hd)).2
        | cons e h2 =>
          have hde : d = e := by simpa using hd.symm
          subst hde
          obtain ⟨_, _, x1, x2, _⟩ := hex_not_special d (hhex d (by simp))
          exact ⟨x1, x2⟩
      rw [List.cons_append, num_get_hex_zero _ hhead, hacc]
      simp
    · have hacc := accumulate_digits (c :: h1) rest 0 false 0 hhex hrest' hfit
      rw [List.cons_append, num_get_hex_plain c _ n1 n2 h0, ← List.cons_append, hacc]
      simp [hex_value]

theorem sentry_good (c : Char) (t : List Char) (hc : is_space c = false) :
    sentry ⟨c :: t, false, false⟩ = (⟨c :: t, false, false⟩, true) := by
  simp [sentry, IStream.good, List.dropWhile, hc]

/-- Extraction of a numeral at the front of a good stream. -/
theorem extract_hex_numeral (h rest : List Char) (v : Nat) (hne : h ≠ [])
    (hhex : ∀ c ∈ h, (hex_val c).isSome = true)
    (hrest : ∀ c ∈ rest.head?, hex_val c = none ∧ c ≠ 'x' ∧ c ≠ 'X')
    (hfit : hex_value h < WORD) :
    extract_hex ⟨h ++ rest, false, false⟩ v =
      (⟨rest, false, decide (rest = [])⟩, hex_value h) := by
  cases h with
  | nil => exact absurd rfl hne
  | cons c h1 =>
    obtain ⟨_, _, _, _, hsp⟩ := hex_not_special c (hhex c (List.mem_cons_self _ _))
    have hn := num_get_hex_numeral (c :: h1) rest hne hhex hrest hfit
    rw [List.cons_append] at hn ⊢
    simp only [extract_hex, sentry_good c _ hsp, if_true, hn]

theorem space_not_hex (c : Char) (hc : is_space c = true) :
    hex_val c = none ∧ c ≠ 'x' ∧ c ≠ 'X' := by
  simp only [is_space, Bool.or_eq_true, decide_eq_true_eq] at hc
  rcases hc with ((((rfl | rfl) | rfl) | rfl) | rfl) | rfl <;> decide

/-- The loop body of `parse_maps` on a well-formed line with 64-bit numerals
stores the two values, whatever follows them and whatever the locals held. -/
theorem parse_line_well_formed (e : MapsEntry) (uninit : Nat × Nat)
    (hwf : e.WellFormed) (hfit : e.Fits) : parse_line e.line uninit = e.region := by
  obtain ⟨hs1, hs2, he1, he2, hr⟩ := hwf
  obtain ⟨hf1, hf2⟩ := hfit
  have h1 := extract_hex_numeral e.start_hex ('-' :: (e.end_hex ++ e.rest)) uninit.1 hs1 hs2
    (by
      intro c hc
      have : c = '-' := by simpa using hc.symm
      subst this
      decide) hf1
  have h3 := extract_hex_numeral e.end_hex e.rest uninit.2 he1 he2
    (fun c hc => space_not_hex c (hr c hc)) hf2
  have h2 : extract_char ⟨'-' :: (e.end_hex ++ e.rest), false, false⟩ '\x00' =
      (⟨e.end_hex ++ e.rest, false, false⟩, '-') := by
    simp only [extract_char, sentry_good '-' _ (by decide), if_true]
  simp only [parse_line, MapsEntry.line, MapsEntry.region, h1, List.cons_ne_nil,
    decide_False, h2, h3]

theorem parse_lines_well_formed (uninit : Nat → Nat × Nat) :
    ∀ (entries : List MapsEntry) (k : Nat),
      (∀ e ∈ entries, e.WellFormed ∧ e.Fits) →
      parse_lines uninit (entries.map MapsEntry.line) k = entries.map MapsEntry.region
  | [], _, _ => rfl
  | e :: rest, k, h => by
    obtain ⟨hw, hf⟩ := h e (List.mem_cons_self _ _)
    simp only [List.map_cons, parse_lines, parse_line_well_formed e (uninit k) hw hf,
      parse_lines_well_formed uninit rest (k + 1)
        (fun e he => h e (List.mem_cons_of_mem _ he))]

/-- C15 as stated fails: the line `10000000000000000-2` has the form
`<start_hex>-<end_hex>`, its numerals have the values `2^64` and 2, and
`parse_maps` returns the largest 64-bit value for the first and leaves the
second at the indeterminate initial value of `finish` (here 9). -/
theorem parse_maps_saturates :
    parse_maps (some ('1' :: List.replicate 16 '0' ++ ['-', '2', '\n'])) (fun _ => (7, 9)) =
      Except.ok [(2 ^ 64 - 1, 9)] ∧
    getlines ('1' :: List.replicate 16 '0' ++ ['-', '2', '\n']) [] =
      [MapsEntry.line ⟨'1' :: List.replicate 16 '0', ['2'], []⟩] ∧
    MapsEntry.WellFormed ⟨'1' :: List.replicate 16 '0', ['2'], []⟩ ∧
    MapsEntry.region ⟨'1' :: List.replicate 16 '0', ['2'], []⟩ = (2 ^ 64, 2) := by
  refine ⟨rfl, by decide, by decide, by decide⟩

/-- C15 amended: for every listing whose lines each have the form
`<start_hex>-<end_hex>`, optionally followed by white space and further fields,
and whose numerals each denote a value below `2^64`, `parse_maps` returns
exactly one pair per line, in line order, made of the values of the two
numerals; what follows the numerals on a line, and the initial values of the
locals, do not influence the result. -/
theorem parse_maps_well_formed (text : List Char) (uninit : Nat → Nat × Nat)
    (entries : List MapsEntry) (hlines : getlines text [] = entries.map MapsEntry.line)
    (hwf : ∀ e ∈ entries, e.WellFormed ∧ e.Fits) :
    parse_maps (some text) uninit = Except.ok (entries.map MapsEntry.region) ∧
    (entries.map MapsEntry.region).length = (getlines text []).length := by
  constructor
  · simp only [parse_maps, hlines, parse_lines_well_formed uninit entries 0 hwf]
  · rw [hlines, List.length_map, List.length_map]

theorem parse_maps_well_formed_witness :
    getlines ("00400000-0040b000 r-xp /bin/cat".toList ++ '\n' :: "7ffd1000-7ffD2000".toList) []
      = [(⟨"00400000".toList, "0040b000".toList, " r-xp /bin/cat".toList⟩ : MapsEntry),
          ⟨"7ffd1000".toList, "7ffD2000".toList, []⟩].map MapsEntry.line ∧
    (∀ e ∈ [(⟨"00400000".toList, "0040b000".toList, " r-xp /bin/cat".toList⟩ : MapsEntry),
        ⟨"7ffd1000".toList, "7ffD2000".toList, []⟩], e.WellFormed ∧ e.Fits) ∧
    parse_maps
        (some ("00400000-0040b000 r-xp /bin/cat".toList ++ '\n' :: "7ffd1000-7ffD2000".toList))
        (fun _ => (7, 9)) =
      Except.ok [(0x400000, 0x40b000), (0x7ffd1000, 0x7ffd2000)] :=
  have h := parse_maps_well_formed
    ("00400000-0040b000 r-xp /bin/cat".toList ++ '\n' :: "7ffd1000-7ffD2000".toList)
    (fun _ => (7, 9))
    [⟨"00400000".toList, "0040b000".toList, " r-xp /bin/cat".toList⟩,
      ⟨"7ffd1000".toList, "7ffD2000".toList, []⟩]
    (by decide) (by decide)
  ⟨by decide, by decide, h.1.trans rfl⟩

end Bingrep
